import Mathlib

/-!
Verification of the version-bump command `Scripts/bump_build_tag.py`.

Text is modelled as `List Char`.  Python regular-expression searches are
embedded as deterministic matchers (every pattern in the script is
backtracking-free except the build-number pattern of
`is_valid_version_4`, which is embedded with an explicit search).  The
anchor `$` of Python matches either at the end of the string or just
before a single final newline; the matchers reproduce that.  `int()` is
embedded as `pyInt` (whitespace stripping, optional sign, decimal
digits; `none` models a `ValueError`).  File writes and git effects are
embedded as explicit state passing in `runMain`.
-/

deriving instance DecidableEq for Except

namespace BumpTag

/-- Characters of a string literal; the text representation used throughout. -/
def chars (s : String) : List Char := s.data

/-- Numeric value of a decimal digit character; 10 for non-digits. -/
def dval (c : Char) : Nat :=
  if c = '0' then 0 else if c = '1' then 1 else if c = '2' then 2 else if c = '3' then 3
  else if c = '4' then 4 else if c = '5' then 5 else if c = '6' then 6 else if c = '7' then 7
  else if c = '8' then 8 else if c = '9' then 9 else 10

/-- The decimal digit character for a value below ten. -/
def dchr (n : Nat) : Char :=
  if n = 0 then '0' else if n = 1 then '1' else if n = 2 then '2' else if n = 3 then '3'
  else if n = 4 then '4' else if n = 5 then '5' else if n = 6 then '6' else if n = 7 then '7'
  else if n = 8 then '8' else '9'

/-- Membership in the regex digit class. -/
def isDig (c : Char) : Bool := dval c < 10

/-- Membership in the marker value class of `set_versions`: digits and dots. -/
def isDD (c : Char) : Bool := isDig c || c = '.'

/-- Python whitespace: stripped by `str.strip`/`int`, matched by the regex class. -/
def pySpace (c : Char) : Bool :=
  c = ' ' || c = '\t' || c = '\n' || c = '\r' || c = '\x0b' || c = '\x0c'

/-- Little-endian decimal digits of `n`, with explicit fuel (enough fuel: `n` itself). -/
def revDigits : Nat → Nat → List Char
  | 0, _ => []
  | fuel + 1, n => if n = 0 then [] else dchr (n % 10) :: revDigits fuel (n / 10)

/-- Decimal rendering of a natural number, as Python `str` on a non-negative int. -/
def natStr (n : Nat) : List Char := if n = 0 then ['0'] else (revDigits n n).reverse

/-- Python `str` of an int: a minus sign followed by the digits when negative. -/
def intStr (i : Int) : List Char := if i < 0 then '-' :: natStr i.natAbs else natStr i.toNat

/-- Value of a big-endian decimal digit string, as `int` computes it. -/
def parseNat (cs : List Char) : Nat := cs.foldl (fun a c => 10 * a + dval c) 0

/-- Value of a little-endian digit string. -/
def valRev (cs : List Char) : Nat := cs.foldr (fun c a => 10 * a + dval c) 0

/-- Python `str.strip`: drop leading and trailing whitespace. -/
def pyStrip (cs : List Char) : List Char :=
  ((cs.dropWhile pySpace).reverse.dropWhile pySpace).reverse

/-- Python `int(text)` on a string: `none` models the `ValueError` raised on
strings that are not optionally-signed decimal numerals after stripping. -/
def pyInt (cs : List Char) : Option Int :=
  match pyStrip cs with
  | [] => none
  | c :: ds =>
    if c = '+' then (if ds ≠ [] ∧ ds.all isDig = true then some (parseNat ds) else none)
    else if c = '-' then
      (if ds ≠ [] ∧ ds.all isDig = true then some (-(parseNat ds : Int)) else none)
    else if (c :: ds).all isDig = true then some (parseNat (c :: ds)) else none

/-- A canonical decimal numeral: nonempty digits, no leading zero except "0" itself. -/
def canonNat (cs : List Char) : Prop :=
  cs ≠ [] ∧ cs.all isDig ∧ (cs.head? ≠ some '0' ∨ cs = ['0'])

instance (cs : List Char) : Decidable (canonNat cs) := by
  unfold canonNat
  infer_instance

/-- The failure conditions of the script: `fail` exits after a dirty-repository
check, a marker the descriptor regex cannot find, or a version string that does
not parse or round-trip; `valueError` is an uncaught Python `ValueError`, which
is not the script's `fail` diagnostic path. -/
inductive Err where
  | dirty
  | missingMarker
  | malformedVersion
  | valueError
deriving DecidableEq, Repr

/-- The `Version1` class: a single build number. -/
structure Version1 where
  build : Int
deriving DecidableEq, Repr

/-- The `Version3` class: major, minor, patch. -/
structure Version3 where
  major : Int
  minor : Int
  patch : Int
deriving DecidableEq, Repr

/-- The `Version4` class: major, minor, patch, build. -/
structure Version4 where
  major : Int
  minor : Int
  patch : Int
  build : Int
deriving DecidableEq, Repr

/-- `Version1.formatted`: `str(self.build)`. -/
def Version1.formatted (v : Version1) : List Char := intStr v.build

/-- `Version3.formatted`: dotted rendering of the three components. -/
def Version3.formatted (v : Version3) : List Char :=
  intStr v.major ++ '.' :: (intStr v.minor ++ '.' :: intStr v.patch)

/-- `Version4.formatted`: dotted rendering of the four components. -/
def Version4.formatted (v : Version4) : List Char :=
  intStr v.major ++ '.' :: (intStr v.minor ++ '.' :: (intStr v.patch ++ '.' :: intStr v.build))

/-- The Python `$` anchor: matches at the end or just before a single final newline. -/
def eolOk (cs : List Char) : Bool := decide (cs = [] ∨ cs = ['\n'])

/-- Matcher for `^(\d+)$`, the regex of `is_valid_version_1`. -/
def match1 (cs : List Char) : Option (List Char) :=
  if cs.takeWhile isDig ≠ [] ∧ eolOk (cs.dropWhile isDig) = true then
    some (cs.takeWhile isDig)
  else none

/-- Matcher for `^(\d+)\.(\d+)\.(\d+)$`, the regex of `parse_version_3` and
`is_valid_version_3`.  The pattern is backtracking-free, so a greedy scan is
exact. -/
def match3 (cs : List Char) : Option (List Char × List Char × List Char) :=
  match cs.dropWhile isDig with
  | '.' :: r2 =>
    match r2.dropWhile isDig with
    | '.' :: r4 =>
      if cs.takeWhile isDig ≠ [] ∧ r2.takeWhile isDig ≠ [] ∧ r4.takeWhile isDig ≠ [] ∧
          eolOk (r4.dropWhile isDig) = true then
        some (cs.takeWhile isDig, r2.takeWhile isDig, r4.takeWhile isDig)
      else none
    | _ => none
  | _ => none

/-- `is_valid_version_1`. -/
def is_valid_version_1 (cs : List Char) : Bool := (match1 cs).isSome

/-- `is_valid_version_3`. -/
def is_valid_version_3 (cs : List Char) : Bool := (match3 cs).isSome

/-- Does `(\d+)$` match the whole remainder? -/
def digitsEol (cs : List Char) : Bool :=
  !(cs.takeWhile isDig).isEmpty && eolOk (cs.dropWhile isDig)

/-- Does `(\d*).(\d+)$` match the whole remainder, where `.` is the regex
any-character (anything but a newline)?  Used for the tail of the
`is_valid_version_4` regex, whose third separator dot is not escaped. -/
def tail2Aux : List Char → Bool
  | [] => false
  | x :: r => (decide (x ≠ '\n') && digitsEol r) || (isDig x && tail2Aux r)

/-- Does `(\d+).(\d+)$` match the whole remainder (unescaped dot)? -/
def tail2 : List Char → Bool
  | [] => false
  | c :: r => isDig c && tail2Aux r

/-- `is_valid_version_4`: its regex `^(\d+)\.(\d+)\.(\d+).(\d+)$` has an
unescaped dot as the third separator, which matches any character except a
newline. -/
def is_valid_version_4 (cs : List Char) : Bool :=
  match cs.dropWhile isDig with
  | '.' :: r2 =>
    match r2.dropWhile isDig with
    | '.' :: r4 => !(cs.takeWhile isDig).isEmpty && !(r2.takeWhile isDig).isEmpty && tail2 r4
    | _ => false
  | _ => false

/-- The exact one-component numeric pattern, as the specification words it. -/
def Pattern1 (cs : List Char) : Prop := cs ≠ [] ∧ cs.all isDig = true

/-- The exact fixed-arity numeric-dot pattern of the three-component form, as
the specification words it. -/
def Pattern3 (cs : List Char) : Prop :=
  ∃ a b c, a ≠ [] ∧ b ≠ [] ∧ c ≠ [] ∧ a.all isDig = true ∧ b.all isDig = true ∧
    c.all isDig = true ∧ cs = a ++ '.' :: (b ++ '.' :: c)

/-- `parse_version_3`: regex match, integer conversion of the groups, then
round-trip verification; every `fail` call is `.error .malformedVersion`. -/
def parse_version_3 (text : List Char) : Except Err Version3 :=
  match match3 text with
  | none => .error .malformedVersion
  | some (a, b, c) =>
    if (⟨(parseNat a : Int), (parseNat b : Int), (parseNat c : Int)⟩ : Version3).formatted =
        text then
      .ok ⟨(parseNat a : Int), (parseNat b : Int), (parseNat c : Int)⟩
    else .error .malformedVersion

/-- `parse_version_1`: Python `int` conversion — whose `ValueError` on
non-numeric text is `.error .valueError`, an exception distinct from the
script's `fail` diagnostic — then round-trip verification. -/
def parse_version_1 (text : List Char) : Except Err Version1 :=
  match pyInt text with
  | none => .error .valueError
  | some n => if intStr n = text then .ok ⟨n⟩ else .error .malformedVersion

/-- Modelled from the spec: strict matcher for the exact four-component
numeric-dot pattern (the repository has no four-component parser; §4.1 of the
spec requires the exact fixed-arity pattern). -/
def match4 (cs : List Char) : Option (List Char × List Char × List Char × List Char) :=
  match cs.dropWhile isDig with
  | '.' :: r2 =>
    match r2.dropWhile isDig with
    | '.' :: r4 =>
      match r4.dropWhile isDig with
      | '.' :: r6 =>
        if cs.takeWhile isDig ≠ [] ∧ r2.takeWhile isDig ≠ [] ∧ r4.takeWhile isDig ≠ [] ∧
            r6.takeWhile isDig ≠ [] ∧ r6.dropWhile isDig = [] then
          some (cs.takeWhile isDig, r2.takeWhile isDig, r4.takeWhile isDig, r6.takeWhile isDig)
        else none
      | _ => none
    | _ => none
  | _ => none

/-- Modelled from the spec: the four-component parse, with the same
match-convert-verify contract as `parse_version_3` (§4.1: constructing from a
string MUST fail with `MalformedVersionError` unless the string matches the
exact fixed-arity numeric-dot pattern and re-formatting reproduces it). -/
def parse_version_4 (text : List Char) : Except Err Version4 :=
  match match4 text with
  | none => .error .malformedVersion
  | some (a, b, c, d) =>
    if (⟨(parseNat a : Int), (parseNat b : Int), (parseNat c : Int),
          (parseNat d : Int)⟩ : Version4).formatted = text then
      .ok ⟨(parseNat a : Int), (parseNat b : Int), (parseNat c : Int), (parseNat d : Int)⟩
    else .error .malformedVersion

/-- The literal `<string>` that opens a marker value. -/
def strOpen : List Char := chars "<string>"

/-- The literal `</string>` that closes a marker value. -/
def strClose : List Char := chars "</string>"

/-- The key literal of the release-version marker. -/
def key1 : List Char := chars "<key>CFBundleShortVersionString</key>"

/-- The key literal of the build-counter marker. -/
def key2 : List Char := chars "<key>CFBundleVersion</key>"

/-- The key literal of the denormalized full-version marker. -/
def key3 : List Char := chars "<key>OWSBundleVersion4</key>"

/-- Consume an exact literal from the front of the text, returning the rest. -/
def afterLit : List Char → List Char → Option (List Char)
  | [], cs => some cs
  | _ :: _, [] => none
  | k :: ks, c :: cs => if c = k then afterLit ks cs else none

/-- Value pattern `([\d\.]+)</string>` of the `set_versions` regexes: the value
group and the remainder, which keeps the closing literal. -/
def valueDD (cs : List Char) : Option (List Char × List Char) :=
  if cs.takeWhile isDD ≠ [] ∧ strClose.isPrefixOf (cs.dropWhile isDD) = true then
    some (cs.takeWhile isDD, cs.dropWhile isDD)
  else none

/-- Value pattern `(\d+\.\d+\.\d+)</string>` of the release-version regex in
`get_versions`. -/
def valueV3 (cs : List Char) : Option (List Char × List Char) :=
  match cs.dropWhile isDig with
  | '.' :: r2 =>
    match r2.dropWhile isDig with
    | '.' :: r4 =>
      if cs.takeWhile isDig ≠ [] ∧ r2.takeWhile isDig ≠ [] ∧ r4.takeWhile isDig ≠ [] ∧
          strClose.isPrefixOf (r4.dropWhile isDig) = true then
        some (cs.takeWhile isDig ++ '.' :: (r2.takeWhile isDig ++ '.' :: r4.takeWhile isDig),
          r4.dropWhile isDig)
      else none
    | _ => none
  | _ => none

/-- Value pattern `(\d+)</string>` of the build-counter regex in `get_versions`. -/
def valueV1 (cs : List Char) : Option (List Char × List Char) :=
  if cs.takeWhile isDig ≠ [] ∧ strClose.isPrefixOf (cs.dropWhile isDig) = true then
    some (cs.takeWhile isDig, cs.dropWhile isDig)
  else none

/-- Match of a whole marker pattern at the start of the text: the key literal,
greedy whitespace, `<string>`, then the value pattern.  Every such pattern in
the script is backtracking-free.  Returns the text up to the value group, the
value group, and the remainder starting at `</string>`. -/
def matchKeyAt (key : List Char) (val : List Char → Option (List Char × List Char))
    (cs : List Char) : Option (List Char × List Char × List Char) :=
  match afterLit key cs with
  | none => none
  | some r1 =>
    match afterLit strOpen (r1.dropWhile pySpace) with
    | none => none
    | some r2 =>
      match val r2 with
      | none => none
      | some (v, r3) => some (key ++ r1.takeWhile pySpace ++ strOpen, v, r3)

/-- `re.search` for a marker pattern: the leftmost match, as the decomposition
(text before the value group, value group, text from `</string>` on) -- the
spans `match.start(1)`/`match.end(1)` used for the splice. -/
def findMarker (key : List Char) (val : List Char → Option (List Char × List Char)) :
    List Char → Option (List Char × List Char × List Char)
  | [] => none
  | c :: rest =>
    match matchKeyAt key val (c :: rest) with
    | some r => some r
    | none =>
      match findMarker key val rest with
      | some (p, v, s) => some (c :: p, v, s)
      | none => none

/-- `set_versions` as the pure transform it performs on one descriptor text:
validate the three new version strings, then three locate-and-splice passes
(release version, build counter, full version), each re-scanning the text the
previous splice produced; the file is written only after all three succeed, so
a failing call leaves that descriptor untouched. -/
def set_versions_text (rel b1 b4 text : List Char) : Except Err (List Char) :=
  if is_valid_version_3 rel = false then .error .malformedVersion
  else if is_valid_version_1 b1 = false then .error .malformedVersion
  else if is_valid_version_4 b4 = false then .error .malformedVersion
  else
    match findMarker key1 valueDD text with
    | none => .error .missingMarker
    | some (p1, _, s1) =>
      match findMarker key2 valueDD (p1 ++ rel ++ s1) with
      | none => .error .missingMarker
      | some (p2, _, s2) =>
        match findMarker key3 valueDD (p2 ++ b1 ++ s2) with
        | none => .error .missingMarker
        | some (p3, _, s3) => .ok (p3 ++ b4 ++ s3)

/-- `get_versions`: locate the release-version and build-counter markers in the
main descriptor text, then parse both values. -/
def get_versions (text : List Char) : Except Err (Version3 × Version1) :=
  match findMarker key1 valueV3 text with
  | none => .error .missingMarker
  | some (_, relStr, _) =>
    match findMarker key2 valueV1 text with
    | none => .error .missingMarker
    | some (_, b1Str, _) =>
      match parse_version_3 relStr with
      | .error e => .error e
      | .ok v3 =>
        match parse_version_1 b1Str with
        | .error e => .error e
        | .ok v1 => .ok (v3, v1)

/-- The version policy of `__main__` (lines 294-321).  `if args.version:` is
Python truthiness, so an empty target string selects increment mode; a
non-empty explicit target is stripped and parsed and the build counter resets
to zero; increment mode keeps the release version and bumps the counter. -/
def computeVersions (old3 : Version3) (old1 : Version1) (target : Option (List Char)) :
    Except Err (Version3 × Version1 × Version4) :=
  match target with
  | some s =>
    if s = [] then
      .ok (old3, ⟨old1.build + 1⟩, ⟨old3.major, old3.minor, old3.patch, old1.build + 1⟩)
    else
      match parse_version_3 (pyStrip s) with
      | .error e => .error e
      | .ok v3 => .ok (v3, ⟨0⟩, ⟨v3.major, v3.minor, v3.patch, 0⟩)
  | none =>
    .ok (old3, ⟨old1.build + 1⟩, ⟨old3.major, old3.minor, old3.patch, old1.build + 1⟩)

/-- Zero-padded two-digit field, as `strftime` `%m` and `%d` render it. -/
def pad2 (n : Nat) : List Char := if n < 10 then '0' :: natStr n else natStr n

/-- Zero-padded four-digit year, as `strftime` `%Y` renders it. -/
def pad4 (n : Nat) : List Char :=
  if n < 10 then '0' :: '0' :: '0' :: natStr n
  else if n < 100 then '0' :: '0' :: natStr n
  else if n < 1000 then '0' :: natStr n
  else natStr n

/-- A calendar date, the value of `date.today()`. -/
structure PyDate where
  year : Nat
  month : Nat
  day : Nat
deriving DecidableEq, Repr

/-- `date.today().strftime("%m-%d-%Y")`. -/
def dateMDY (d : PyDate) : List Char :=
  pad2 d.month ++ '-' :: pad2 d.day ++ '-' :: pad4 d.year

/-- The parsed command line: an optional `--version` target and the mutually
exclusive channel flags. -/
structure Args where
  version : Option (List Char)
  internal : Bool
  nightly : Bool
  beta : Bool
deriving DecidableEq, Repr

/-- The commit message of lines 343-350 (checked in the order internal, beta,
nightly). -/
def commitMessage (args : Args) (v4 : List Char) (today : PyDate) : List Char :=
  if args.internal then chars "\"Bump build to " ++ v4 ++ chars ".\" (Internal)"
  else if args.beta then chars "\"Bump build to " ++ v4 ++ chars ".\" (Beta)"
  else if args.nightly then
    chars "\"Bump build to " ++ v4 ++ chars ".\" (nightly-" ++ dateMDY today ++ chars ")"
  else chars "\"Bump build to " ++ v4 ++ chars ".\""

/-- The tag name of lines 354-362 (checked in the order internal, nightly,
beta; the flags are mutually exclusive). -/
def tagName (args : Args) (v4 : List Char) : List Char :=
  if args.internal then v4 ++ chars "-internal"
  else if args.nightly then v4 ++ chars "-nightly"
  else if args.beta then v4 ++ chars "-beta"
  else v4

/-- The contents of the three descriptor files. -/
structure Plists where
  main : List Char
  sae : List Char
  nse : List Char
deriving DecidableEq, Repr

/-- Outcome of a run: whether the process exited zero, the failure if any, the
descriptor contents at exit, and the commit message and tag name when the run
got that far. -/
structure RunOutcome where
  exitZero : Bool
  err : Option Err
  plists : Plists
  commitMsg : Option (List Char)
  tag : Option (List Char)
deriving DecidableEq, Repr

/-- A `fail`/`sys.exit(1)` outcome with the descriptors in the given state. -/
def failedRun (w : Plists) (e : Err) : RunOutcome :=
  ⟨false, some e, w, none, none⟩

/-- `__main__` after argument parsing and path discovery, as explicit state
passing over the descriptor contents: the dirty-tree gate over the captured
`git status --porcelain` and `git diff --shortstat` outputs, then
`get_versions` on the main descriptor, the version policy, and the
`set_versions` loop over main, share-extension, and NSE descriptors in that
order -- each write landing before the next descriptor is examined.  The
`plutil` conversion is the identity here (descriptors are modelled as the text
it guarantees), and the git add/commit/tag subprocesses are modelled as
succeeding, with the message and tag recorded in the outcome. -/
def runMain (args : Args) (statusOut diffOut : List Char) (today : PyDate) (w : Plists) :
    RunOutcome :=
  if pyStrip statusOut ≠ [] then failedRun w .dirty
  else if pyStrip diffOut ≠ [] then failedRun w .dirty
  else
    match get_versions w.main with
    | .error e => failedRun w e
    | .ok (old3, old1) =>
      match computeVersions old3 old1 args.version with
      | .error e => failedRun w e
      | .ok (n3, n1, n4) =>
        match set_versions_text n3.formatted n1.formatted n4.formatted w.main with
        | .error e => failedRun w e
        | .ok m2 =>
          match set_versions_text n3.formatted n1.formatted n4.formatted w.sae with
          | .error e => failedRun ⟨m2, w.sae, w.nse⟩ e
          | .ok s2 =>
            match set_versions_text n3.formatted n1.formatted n4.formatted w.nse with
            | .error e => failedRun ⟨m2, s2, w.nse⟩ e
            | .ok n2 =>
              ⟨true, none, ⟨m2, s2, n2⟩, some (commitMessage args n4.formatted today),
                some (tagName args n4.formatted)⟩

/-- A marker occurrence inside a text, as the decomposition `findMarker`
returns: the prefix ends with the key literal, a whitespace run, and
`<string>`; the value group is nonempty digits-and-dots; the remainder starts
with `</string>`. -/
def MarkerOcc (key t P V S : List Char) : Prop :=
  t = P ++ V ++ S ∧ (∃ P0 w, w.all pySpace = true ∧ P = P0 ++ key ++ w ++ strOpen) ∧
    V ≠ [] ∧ V.all isDD = true ∧ ∃ s0, S = strClose ++ s0

/-- A minimal well-formed descriptor text with all three markers, used as a
concrete run input. -/
def demoPlist : List Char :=
  chars "<key>CFBundleShortVersionString</key><string>1.2.3</string><key>CFBundleVersion</key><string>4</string><key>OWSBundleVersion4</key><string>1.2.3.4</string>"

theorem dval_lt_ten {c : Char} (h : isDig c = true) : dval c < 10 :=
  of_decide_eq_true h

theorem dig_elim {c : Char} (h : isDig c = true) :
    c = '0' ∨ c = '1' ∨ c = '2' ∨ c = '3' ∨ c = '4' ∨ c = '5' ∨ c = '6' ∨ c = '7' ∨
      c = '8' ∨ c = '9' := by
  have h' : dval c < 10 := dval_lt_ten h
  by_contra hc
  push_neg at hc
  obtain ⟨h0, h1, h2, h3, h4, h5, h6, h7, h8, h9⟩ := hc
  simp [dval, h0, h1, h2, h3, h4, h5, h6, h7, h8, h9] at h'

theorem dchr_dval {c : Char} (h : isDig c = true) : dchr (dval c) = c := by
  rcases dig_elim h with h | h | h | h | h | h | h | h | h | h <;> subst h <;> decide

theorem dval_eq_zero {c : Char} (h : isDig c = true) (h0 : dval c = 0) : c = '0' := by
  rcases dig_elim h with h | h | h | h | h | h | h | h | h | h <;> subst h <;>
    first | rfl | exact absurd h0 (by decide)

theorem dval_dchr {n : Nat} (h : n < 10) : dval (dchr n) = n := by
  interval_cases n <;> decide

theorem isDig_dchr {n : Nat} (h : n < 10) : isDig (dchr n) = true := by
  interval_cases n <;> decide

theorem dchr_ne_zero {n : Nat} (h0 : 0 < n) (h : n < 10) : dchr n ≠ '0' := by
  interval_cases n <;> decide

theorem revDigits_zero (fuel : Nat) : revDigits fuel 0 = [] := by
  cases fuel <;> simp [revDigits]

theorem revDigits_fuel (f : Nat) : ∀ g n, n ≤ f → n ≤ g → revDigits f n = revDigits g n := by
  induction f with
  | zero => intro g n hf _; interval_cases n; rw [revDigits_zero, revDigits_zero]
  | succ f ih =>
    intro g n hf hg
    cases g with
    | zero => interval_cases n; rw [revDigits_zero, revDigits_zero]
    | succ g =>
      by_cases hn : n = 0
      · subst hn; simp [revDigits]
      · simp only [revDigits, if_neg hn]
        have hlt : n / 10 < n := Nat.div_lt_self (Nat.pos_of_ne_zero hn) (by omega)
        rw [ih g (n / 10) (by omega) (by omega)]

theorem valRev_revDigits (fuel : Nat) : ∀ n, n ≤ fuel → valRev (revDigits fuel n) = n := by
  induction fuel with
  | zero => intro n h; interval_cases n; simp [revDigits, valRev]
  | succ fuel ih =>
    intro n h
    by_cases hn : n = 0
    · subst hn; simp [revDigits, valRev]
    · have hlt : n / 10 < n := Nat.div_lt_self (Nat.pos_of_ne_zero hn) (by omega)
      simp only [revDigits, if_neg hn, valRev, List.foldr_cons]
      have := ih (n / 10) (by omega)
      unfold valRev at this
      rw [this, dval_dchr (Nat.mod_lt n (by omega))]
      omega

theorem revDigits_all (fuel : Nat) : ∀ n, (revDigits fuel n).all isDig = true := by
  induction fuel with
  | zero => intro n; simp [revDigits]
  | succ fuel ih =>
    intro n
    by_cases hn : n = 0
    · subst hn; simp [revDigits]
    · simp only [revDigits, if_neg hn, List.all_cons, Bool.and_eq_true]
      exact ⟨isDig_dchr (Nat.mod_lt n (by omega)), ih (n / 10)⟩

theorem revDigits_ne_nil (fuel n : Nat) (h0 : 0 < n) (h : n ≤ fuel) :
    revDigits fuel n ≠ [] := by
  cases fuel with
  | zero => omega
  | succ fuel => simp [revDigits, Nat.pos_iff_ne_zero.mp h0]

theorem revDigits_getLast (fuel : Nat) : ∀ n, 0 < n → n ≤ fuel →
    ∀ c, (revDigits fuel n).getLast? = some c → c ≠ '0' := by
  induction fuel with
  | zero => intro n h0 h; omega
  | succ fuel ih =>
    intro n h0 h c hc
    have hn : n ≠ 0 := by omega
    simp only [revDigits, if_neg hn] at hc
    by_cases hq : n / 10 = 0
    · rw [hq, revDigits_zero] at hc
      simp only [List.getLast?_singleton, Option.some.injEq] at hc
      subst hc
      have h10 : n < 10 := by omega
      rw [Nat.mod_eq_of_lt h10]
      exact dchr_ne_zero h0 h10
    · have hlt : n / 10 < n := Nat.div_lt_self h0 (by omega)
      have hne : revDigits fuel (n / 10) ≠ [] := revDigits_ne_nil fuel (n / 10) (by omega) (by omega)
      rcases hl : revDigits fuel (n / 10) with _ | ⟨b, t⟩
      · exact absurd hl hne
      · rw [hl, List.getLast?_cons_cons] at hc
        rw [← hl] at hc
        exact ih (n / 10) (by omega) (by omega) c hc

theorem natStr_ne_nil (n : Nat) : natStr n ≠ [] := by
  unfold natStr
  split
  · simp
  · next h =>
    simp only [ne_eq, List.reverse_eq_nil_iff]
    exact revDigits_ne_nil n n (Nat.pos_of_ne_zero h) le_rfl

theorem natStr_all (n : Nat) : (natStr n).all isDig = true := by
  unfold natStr
  split
  · decide
  · rw [List.all_reverse]; exact revDigits_all n n

theorem parseNat_reverse (l : List Char) : parseNat l.reverse = valRev l := by
  unfold parseNat valRev
  rw [List.foldl_reverse]

theorem parseNat_natStr (n : Nat) : parseNat (natStr n) = n := by
  unfold natStr
  split
  · next h => subst h; decide
  · rw [parseNat_reverse]; exact valRev_revDigits n n le_rfl

theorem canonNat_natStr (n : Nat) : canonNat (natStr n) := by
  refine ⟨natStr_ne_nil n, natStr_all n, ?_⟩
  unfold natStr
  split
  · right; rfl
  · next h =>
    left
    rw [List.head?_reverse]
    intro hc
    exact revDigits_getLast n n (Nat.pos_of_ne_zero h) le_rfl '0' hc rfl

theorem parseNat_append (cs : List Char) (d : Char) :
    parseNat (cs ++ [d]) = 10 * parseNat cs + dval d := by
  unfold parseNat
  rw [List.foldl_append]
  rfl

theorem parseNat_le_aux (cs : List Char) : ∀ a : Nat,
    a ≤ cs.foldl (fun a c => 10 * a + dval c) a := by
  induction cs with
  | nil => intro a; simp
  | cons c cs ih =>
    intro a
    simp only [List.foldl_cons]
    calc a ≤ 10 * a + dval c := by omega
    _ ≤ _ := ih _

theorem parseNat_pos (cs : List Char) (hne : cs ≠ []) (hd : cs.all isDig = true)
    (h0 : cs.head? ≠ some '0') : 0 < parseNat cs := by
  cases cs with
  | nil => exact absurd rfl hne
  | cons c rest =>
    simp only [List.all_cons, Bool.and_eq_true] at hd
    have hc0 : dval c ≠ 0 := by
      intro h
      have hc : c = '0' := dval_eq_zero hd.1 h
      subst hc
      exact h0 rfl
    unfold parseNat
    simp only [List.foldl_cons]
    calc 0 < 10 * 0 + dval c := by omega
    _ ≤ _ := parseNat_le_aux rest _

theorem revDigits_parseNat (cs : List Char) (hne : cs ≠ []) (hd : cs.all isDig = true)
    (h0 : cs.head? ≠ some '0') :
    ∀ fuel, parseNat cs ≤ fuel → revDigits fuel (parseNat cs) = cs.reverse := by
  induction cs using List.reverseRecOn with
  | nil => exact absurd rfl hne
  | append_singleton ds d ih =>
    intro fuel hfuel
    simp only [List.all_append, List.all_cons, Bool.and_eq_true, List.all_nil] at hd
    have hdig : isDig d = true := hd.2.1
    rw [parseNat_append] at hfuel ⊢
    cases ds with
    | nil =>
      simp only [List.nil_append] at h0 ⊢
      simp only [parseNat, List.foldl_nil, Nat.mul_zero, Nat.zero_add] at hfuel ⊢
      have hpos : 0 < dval d := by
        rcases Nat.eq_zero_or_pos (dval d) with h | h
        · have hc : d = '0' := dval_eq_zero hdig h
          subst hc
          exact absurd rfl h0
        · exact h
      cases fuel with
      | zero => omega
      | succ fuel =>
        simp only [revDigits, if_neg (by omega : ¬dval d = 0)]
        rw [Nat.mod_eq_of_lt (dval_lt_ten hdig), Nat.div_eq_of_lt (dval_lt_ten hdig),
          revDigits_zero, dchr_dval hdig]
        rfl
    | cons c rest =>
      have hdsne : (c :: rest) ≠ [] := by simp
      have hh0 : (c :: rest).head? ≠ some '0' := by
        simpa using h0
      have hall : (c :: rest).all isDig = true := hd.1
      have hpos : 0 < parseNat (c :: rest) := parseNat_pos _ hdsne hall hh0
      have hdlt : dval d < 10 := dval_lt_ten hdig
      cases fuel with
      | zero => omega
      | succ fuel =>
        simp only [revDigits, if_neg (by omega : ¬10 * parseNat (c :: rest) + dval d = 0)]
        have hmod : (10 * parseNat (c :: rest) + dval d) % 10 = dval d := by
          omega
        have hdivq : (10 * parseNat (c :: rest) + dval d) / 10 = parseNat (c :: rest) := by
          omega
        rw [hmod, hdivq, dchr_dval hdig,
          ih hdsne hall hh0 fuel (by
            have : parseNat (c :: rest) < 10 * parseNat (c :: rest) + dval d := by omega
            omega)]
        rw [List.reverse_append]
        rfl

theorem canon_natStr (cs : List Char) (h : canonNat cs) : natStr (parseNat cs) = cs := by
  obtain ⟨hne, hd, h0⟩ := h
  rcases h0 with h0 | h0
  · have hpos : 0 < parseNat cs := parseNat_pos cs hne hd h0
    unfold natStr
    rw [if_neg (by omega)]
    rw [revDigits_parseNat cs hne hd h0 (parseNat cs) le_rfl, List.reverse_reverse]
  · subst h0; decide

theorem intStr_natCast (n : Nat) : intStr (n : Int) = natStr n := by
  unfold intStr
  rw [if_neg (by omega : ¬((n : Int) < 0)), Int.toNat_natCast]

theorem span_append {p : Char → Bool} {a : List Char} (b : List Char) (ha : a.all p = true)
    (hb : ∀ c, b.head? = some c → p c = false) :
    (a ++ b).takeWhile p = a ∧ (a ++ b).dropWhile p = b := by
  have ha' : ∀ x ∈ a, p x = true := fun x hx => List.all_eq_true.mp ha x hx
  constructor
  · rw [List.takeWhile_append_of_pos ha']
    cases b with
    | nil => simp
    | cons c r =>
      rw [List.takeWhile_cons_of_neg (by simp [hb c rfl])]
      simp
  · rw [List.dropWhile_append_of_pos ha']
    cases b with
    | nil => simp
    | cons c r => rw [List.dropWhile_cons_of_neg (by simp [hb c rfl])]

theorem span_all {p : Char → Bool} {a : List Char} (ha : a.all p = true) :
    a.takeWhile p = a ∧ a.dropWhile p = [] := by
  have := span_append (p := p) (a := a) [] ha (by intro c hc; simp at hc)
  simpa using this

theorem dropWhile_head_neg {p : Char → Bool} {l : List Char}
    (h : ∀ c, l.head? = some c → p c = false) : l.dropWhile p = l := by
  cases l with
  | nil => rfl
  | cons c r => rw [List.dropWhile_cons_of_neg (by simp [h c rfl])]

theorem isDig_not_space {c : Char} (h : isDig c = true) : pySpace c = false := by
  rcases dig_elim h with h | h | h | h | h | h | h | h | h | h <;> subst h <;> decide

theorem isDig_ne_sign {c : Char} (h : isDig c = true) : c ≠ '+' ∧ c ≠ '-' := by
  rcases dig_elim h with h | h | h | h | h | h | h | h | h | h <;> subst h <;> exact ⟨by decide, by decide⟩

theorem pyStrip_nospace {t : List Char} (h : ∀ c ∈ t, pySpace c = false) : pyStrip t = t := by
  unfold pyStrip
  rw [dropWhile_head_neg (fun c hc => h c (List.mem_of_mem_head? hc)),
    dropWhile_head_neg (fun c hc => h c (by
      have := List.mem_of_mem_head? hc
      exact List.mem_reverse.mp this)),
    List.reverse_reverse]

theorem pyStrip_digits {s : List Char} (h : s.all isDig = true) : pyStrip s = s :=
  pyStrip_nospace (fun c hc => isDig_not_space (List.all_eq_true.mp h c hc))

theorem pyInt_digits {s : List Char} (hne : s ≠ []) (h : s.all isDig = true) :
    pyInt s = some ((parseNat s : Int)) := by
  cases s with
  | nil => exact absurd rfl hne
  | cons c ds =>
    have h' := h
    simp only [List.all_cons, Bool.and_eq_true] at h'
    have hsign := isDig_ne_sign h'.1
    unfold pyInt
    rw [pyStrip_digits h]
    dsimp only
    rw [if_neg hsign.1, if_neg hsign.2, if_pos h]

theorem eolOk_elim {cs : List Char} (h : eolOk cs = true) : cs = [] ∨ cs = ['\n'] :=
  of_decide_eq_true h

theorem match3_parts {a b c : List Char} (ha : a ≠ []) (hb : b ≠ []) (hc : c ≠ [])
    (da : a.all isDig = true) (db : b.all isDig = true) (dc : c.all isDig = true) :
    match3 (a ++ '.' :: (b ++ '.' :: c)) = some (a, b, c) := by
  obtain ⟨e1, e2⟩ := span_append ('.' :: (b ++ '.' :: c)) da
    (by intro x hx; simp only [List.head?_cons, Option.some.injEq] at hx; subst hx; decide)
  obtain ⟨e3, e4⟩ := span_append ('.' :: c) db
    (by intro x hx; simp only [List.head?_cons, Option.some.injEq] at hx; subst hx; decide)
  obtain ⟨e5, e6⟩ := span_all dc
  simp only [match3, e1, e2, e3, e4, e5, e6]
  rw [if_pos ⟨ha, hb, hc, by decide⟩]

theorem takeWhile_all {p : Char → Bool} (l : List Char) : (l.takeWhile p).all p = true :=
  List.all_eq_true.mpr fun _ hx => List.mem_takeWhile_imp hx

theorem match3_sound {cs a b c : List Char} (h : match3 cs = some (a, b, c)) :
    a ≠ [] ∧ b ≠ [] ∧ c ≠ [] ∧ a.all isDig = true ∧ b.all isDig = true ∧
      c.all isDig = true ∧
      (cs = a ++ '.' :: (b ++ '.' :: c) ∨ cs = a ++ '.' :: (b ++ '.' :: (c ++ ['\n']))) := by
  unfold match3 at h
  split at h
  next r2 heq2 =>
    split at h
    next r4 heq4 =>
      split at h
      next hcond =>
        simp only [Option.some.injEq, Prod.mk.injEq] at h
        obtain ⟨ha, hb, hc⟩ := h
        subst ha; subst hb; subst hc
        have d1 := (List.takeWhile_append_dropWhile (p := isDig) (l := cs)).symm
        rw [heq2] at d1
        have d2 := (List.takeWhile_append_dropWhile (p := isDig) (l := r2)).symm
        rw [heq4] at d2
        have d3 := (List.takeWhile_append_dropWhile (p := isDig) (l := r4)).symm
        refine ⟨hcond.1, hcond.2.1, hcond.2.2.1, takeWhile_all cs, takeWhile_all r2,
          takeWhile_all r4, ?_⟩
        rcases eolOk_elim hcond.2.2.2 with he | he
        · left
          have hr4 : r4 = r4.takeWhile isDig := by
            conv_lhs => rw [d3]
            rw [he, List.append_nil]
          calc cs = cs.takeWhile isDig ++ '.' :: r2 := d1
            _ = _ := by rw [← hr4, ← d2]
        · right
          have hr4 : r4 = r4.takeWhile isDig ++ ['\n'] := by
            conv_lhs => rw [d3]
            rw [he]
          calc cs = cs.takeWhile isDig ++ '.' :: r2 := d1
            _ = _ := by rw [← hr4, ← d2]
      next => exact absurd h (by simp)
    next => exact absurd h (by simp)
  next => exact absurd h (by simp)

theorem head_dot (l : List Char) : ∀ x, ('.' :: l).head? = some x → isDig x = false := by
  intro x hx
  simp only [List.head?_cons, Option.some.injEq] at hx
  subst hx
  decide

theorem match4_parts {a b c d : List Char} (ha : a ≠ []) (hb : b ≠ []) (hc : c ≠ [])
    (hd : d ≠ []) (da : a.all isDig = true) (db : b.all isDig = true)
    (dc : c.all isDig = true) (dd : d.all isDig = true) :
    match4 (a ++ '.' :: (b ++ '.' :: (c ++ '.' :: d))) = some (a, b, c, d) := by
  obtain ⟨e1, e2⟩ := span_append ('.' :: (b ++ '.' :: (c ++ '.' :: d))) da (head_dot _)
  obtain ⟨e3, e4⟩ := span_append ('.' :: (c ++ '.' :: d)) db (head_dot _)
  obtain ⟨e5, e6⟩ := span_append ('.' :: d) dc (head_dot _)
  obtain ⟨e7, e8⟩ := span_all dd
  simp only [match4, e1, e2, e3, e4, e5, e6, e7, e8]
  rw [if_pos ⟨ha, hb, hc, hd, trivial⟩]

theorem fmt3_nat (x y z : Nat) :
    (⟨(x : Int), (y : Int), (z : Int)⟩ : Version3).formatted =
      natStr x ++ '.' :: (natStr y ++ '.' :: natStr z) := by
  unfold Version3.formatted
  simp only [intStr_natCast]

theorem fmt4_nat (x y z w : Nat) :
    (⟨(x : Int), (y : Int), (z : Int), (w : Int)⟩ : Version4).formatted =
      natStr x ++ '.' :: (natStr y ++ '.' :: (natStr z ++ '.' :: natStr w)) := by
  unfold Version4.formatted
  simp only [intStr_natCast]

theorem parse3_canon {a b c : List Char} (ha : canonNat a) (hb : canonNat b)
    (hc : canonNat c) :
    parse_version_3 (a ++ '.' :: (b ++ '.' :: c)) =
      .ok ⟨(parseNat a : Int), (parseNat b : Int), (parseNat c : Int)⟩ := by
  unfold parse_version_3
  rw [match3_parts ha.1 hb.1 hc.1 ha.2.1 hb.2.1 hc.2.1]
  dsimp only
  rw [if_pos (by rw [fmt3_nat, canon_natStr a ha, canon_natStr b hb, canon_natStr c hc])]

theorem parse4_canon {a b c d : List Char} (ha : canonNat a) (hb : canonNat b)
    (hc : canonNat c) (hd : canonNat d) :
    parse_version_4 (a ++ '.' :: (b ++ '.' :: (c ++ '.' :: d))) =
      .ok ⟨(parseNat a : Int), (parseNat b : Int), (parseNat c : Int), (parseNat d : Int)⟩ := by
  unfold parse_version_4
  rw [match4_parts ha.1 hb.1 hc.1 hd.1 ha.2.1 hb.2.1 hc.2.1 hd.2.1]
  dsimp only
  rw [if_pos (by
    rw [fmt4_nat, canon_natStr a ha, canon_natStr b hb, canon_natStr c hc, canon_natStr d hd])]

theorem parse1_canon {s : List Char} (h : canonNat s) :
    parse_version_1 s = .ok ⟨(parseNat s : Int)⟩ := by
  unfold parse_version_1
  rw [pyInt_digits h.1 h.2.1]
  dsimp only
  rw [if_pos (by rw [intStr_natCast, canon_natStr s h])]

theorem parse3_ok_fmt {t : List Char} {v : Version3} (h : parse_version_3 t = .ok v) :
    v.formatted = t := by
  unfold parse_version_3 at h
  split at h
  next => exact absurd h (by simp)
  next a b c =>
    split at h
    next hfmt =>
      injection h with h
      subst h
      exact hfmt
    next => exact absurd h (by simp)

theorem intStr_nospace (i : Int) : ∀ c ∈ intStr i, pySpace c = false := by
  intro c hc
  unfold intStr at hc
  split at hc
  · rcases List.mem_cons.mp hc with h | h
    · subst h; decide
    · exact isDig_not_space (List.all_eq_true.mp (natStr_all _) c h)
  · exact isDig_not_space (List.all_eq_true.mp (natStr_all _) c hc)

theorem fmt3_nospace (v : Version3) : ∀ c ∈ v.formatted, pySpace c = false := by
  intro c hc
  unfold Version3.formatted at hc
  rcases List.mem_append.mp hc with h | h
  · exact intStr_nospace _ c h
  · rcases List.mem_cons.mp h with h | h
    · subst h; decide
    · rcases List.mem_append.mp h with h | h
      · exact intStr_nospace _ c h
      · rcases List.mem_cons.mp h with h | h
        · subst h; decide
        · exact intStr_nospace _ c h

/-- C1: the version policy is a pure function of the current Version3, the
current Version1, and the optional target.  With an explicit target whose
stripped text parses, the new Version3 is the parsed target, the new Version1
is zero, and the new Version4 is the target's components followed by zero.
With no target, the new Version3 is the current one unchanged, the new
Version1 is the current counter plus one, and the new Version4 is the current
Version3's components followed by the new counter. -/
theorem C1_version_policy :
    (∀ (old3 : Version3) (old1 : Version1) (s : List Char) (v : Version3),
      parse_version_3 (pyStrip s) = .ok v →
      computeVersions old3 old1 (some s) =
        .ok (v, ⟨0⟩, ⟨v.major, v.minor, v.patch, 0⟩)) ∧
    (∀ (old3 : Version3) (old1 : Version1),
      computeVersions old3 old1 none =
        .ok (old3, ⟨old1.build + 1⟩,
          ⟨old3.major, old3.minor, old3.patch, old1.build + 1⟩)) := by
  constructor
  · intro old3 old1 s v h
    have hs : s ≠ [] := by
      intro he
      rw [he, show pyStrip [] = [] from rfl,
        show parse_version_3 [] = Except.error Err.malformedVersion from by decide] at h
      exact Except.noConfusion h
    simp only [computeVersions]
    rw [if_neg hs, h]
  · intro old3 old1
    rfl

/-- Witness for C1 at the spec's own examples: target "6.0.0" resets the
counter; an increment run on (5.19.0, 42) yields (5.19.0, 43, 5.19.0.43). -/
theorem C1_version_policy_witness :
    computeVersions ⟨5, 19, 0⟩ ⟨42⟩ (some (chars "6.0.0")) =
      .ok (⟨6, 0, 0⟩, ⟨0⟩, ⟨6, 0, 0, 0⟩) ∧
    computeVersions ⟨5, 19, 0⟩ ⟨42⟩ none = .ok (⟨5, 19, 0⟩, ⟨43⟩, ⟨5, 19, 0, 43⟩) :=
  ⟨C1_version_policy.1 ⟨5, 19, 0⟩ ⟨42⟩ (chars "6.0.0") ⟨6, 0, 0⟩ (by decide),
    C1_version_policy.2 ⟨5, 19, 0⟩ ⟨42⟩⟩

/-- C2: a run whose version-control status query or diff-statistics query
returns non-empty (stripped) output exits non-zero with the dirty-repository
diagnostic and leaves every descriptor byte-identical: the gate runs before
any descriptor is opened for writing. -/
theorem C2_dirty_tree_aborts (args : Args) (statusOut diffOut : List Char) (today : PyDate)
    (w : Plists) (h : pyStrip statusOut ≠ [] ∨ pyStrip diffOut ≠ []) :
    (runMain args statusOut diffOut today w).exitZero = false ∧
    (runMain args statusOut diffOut today w).err = some .dirty ∧
    (runMain args statusOut diffOut today w).plists = w := by
  unfold runMain
  by_cases h1 : pyStrip statusOut ≠ []
  · rw [if_pos h1]
    exact ⟨rfl, rfl, rfl⟩
  · have h2 : pyStrip diffOut ≠ [] := h.resolve_left h1
    rw [if_neg h1, if_pos h2]
    exact ⟨rfl, rfl, rfl⟩

/-- Witness for C2: one modified file in the status output aborts the run. -/
theorem C2_dirty_tree_aborts_witness :
    (runMain ⟨none, false, false, false⟩ (chars "M x") [] ⟨2024, 1, 15⟩
        ⟨demoPlist, demoPlist, demoPlist⟩).exitZero = false ∧
    (runMain ⟨none, false, false, false⟩ (chars "M x") [] ⟨2024, 1, 15⟩
        ⟨demoPlist, demoPlist, demoPlist⟩).err = some .dirty ∧
    (runMain ⟨none, false, false, false⟩ (chars "M x") [] ⟨2024, 1, 15⟩
        ⟨demoPlist, demoPlist, demoPlist⟩).plists = ⟨demoPlist, demoPlist, demoPlist⟩ :=
  C2_dirty_tree_aborts ⟨none, false, false, false⟩ (chars "M x") [] ⟨2024, 1, 15⟩
    ⟨demoPlist, demoPlist, demoPlist⟩ (Or.inl (by decide))

/-- C10: the explicit target is stripped before parsing: whenever the stripped
text parses, the run computes the same versions as with the pre-stripped
target, so " 6.0.0 " behaves exactly like "6.0.0" even though
`parse_version_3` itself rejects text with surrounding whitespace. -/
theorem C10_target_stripped :
    (∀ (old3 : Version3) (old1 : Version1) (s : List Char) (v : Version3),
      parse_version_3 (pyStrip s) = .ok v →
      computeVersions old3 old1 (some s) = computeVersions old3 old1 (some (pyStrip s))) ∧
    parse_version_3 (chars " 6.0.0 ") = .error .malformedVersion ∧
    computeVersions ⟨1, 2, 3⟩ ⟨7⟩ (some (chars " 6.0.0 ")) =
      .ok (⟨6, 0, 0⟩, ⟨0⟩, ⟨6, 0, 0, 0⟩) := by
  refine ⟨?_, by decide, by decide⟩
  intro old3 old1 s v h
  have hs : s ≠ [] := by
    intro he
    rw [he, show pyStrip [] = [] from rfl,
      show parse_version_3 [] = Except.error Err.malformedVersion from by decide] at h
    exact Except.noConfusion h
  have hps : pyStrip s ≠ [] := by
    intro he
    rw [he, show parse_version_3 [] = Except.error Err.malformedVersion from by decide] at h
    exact Except.noConfusion h
  have hfmt := parse3_ok_fmt h
  have hstrip : pyStrip (pyStrip s) = pyStrip s := by
    conv_lhs => rw [← hfmt]
    rw [pyStrip_nospace (fmt3_nospace v), hfmt]
  simp only [computeVersions]
  rw [if_neg hs, if_neg hps, hstrip, h]

/-- Witness for C10 at " 6.0.0 ". -/
theorem C10_target_stripped_witness :
    computeVersions ⟨1, 2, 3⟩ ⟨7⟩ (some (chars " 6.0.0 ")) =
      computeVersions ⟨1, 2, 3⟩ ⟨7⟩ (some (pyStrip (chars " 6.0.0 "))) :=
  C10_target_stripped.1 ⟨1, 2, 3⟩ ⟨7⟩ (chars " 6.0.0 ") ⟨6, 0, 0⟩ (by decide)

theorem dotfree_inj : ∀ (x y u v : List Char), '.' ∉ x → '.' ∉ y →
    x ++ '.' :: u = y ++ '.' :: v → x = y ∧ u = v := by
  intro x
  induction x with
  | nil =>
    intro y u v _ hy h
    cases y with
    | nil => simpa using h
    | cons d t =>
      simp only [List.nil_append, List.cons_append, List.cons.injEq] at h
      obtain ⟨h1, _⟩ := h
      subst h1
      exact absurd (List.mem_cons_self _ _) hy
  | cons c t ih =>
    intro y u v hx hy h
    cases y with
    | nil =>
      simp only [List.cons_append, List.nil_append, List.cons.injEq] at h
      obtain ⟨h1, _⟩ := h
      subst h1
      exact absurd (List.mem_cons_self _ _) hx
    | cons d s =>
      simp only [List.cons_append, List.cons.injEq] at h
      obtain ⟨hcd, h2⟩ := h
      have hx' : '.' ∉ t := fun hm => hx (List.mem_cons_of_mem c hm)
      have hy' : '.' ∉ s := fun hm => hy (List.mem_cons_of_mem d hm)
      obtain ⟨h3, h4⟩ := ih s u v hx' hy' h2
      exact ⟨by rw [hcd, h3], h4⟩

theorem digits_no_dot {l : List Char} (h : l.all isDig = true) : '.' ∉ l := by
  intro hm
  exact absurd (List.all_eq_true.mp h '.' hm) (by decide)

/-- C5: a leading zero in any component (a component that starts with '0' but
is not exactly "0") makes the parse fail with the malformed-version
diagnostic rather than return a value: the regex admits the string but the
round-trip verification rejects it. -/
theorem C5_leading_zero_rejected :
    (∀ a b c : List Char, a.all isDig = true → b.all isDig = true → c.all isDig = true →
      a ≠ [] → b ≠ [] → c ≠ [] →
      ((a.head? = some '0' ∧ a ≠ ['0']) ∨ (b.head? = some '0' ∧ b ≠ ['0']) ∨
        (c.head? = some '0' ∧ c ≠ ['0'])) →
      parse_version_3 (a ++ '.' :: (b ++ '.' :: c)) = .error .malformedVersion) ∧
    (∀ s : List Char, s.all isDig = true → s.head? = some '0' → s ≠ ['0'] →
      parse_version_1 s = .error .malformedVersion) := by
  constructor
  · intro a b c da db dc ha hb hc hlead
    unfold parse_version_3
    rw [match3_parts ha hb hc da db dc]
    dsimp only
    have hne' : (⟨(parseNat a : Int), (parseNat b : Int), (parseNat c : Int)⟩ :
        Version3).formatted ≠ a ++ '.' :: (b ++ '.' :: c) := by
      intro heq
      rw [fmt3_nat] at heq
      obtain ⟨h1, h2⟩ :=
        dotfree_inj _ _ _ _ (digits_no_dot (natStr_all _)) (digits_no_dot da) heq
      obtain ⟨h3, h4⟩ :=
        dotfree_inj _ _ _ _ (digits_no_dot (natStr_all _)) (digits_no_dot db) h2
      rcases hlead with ⟨hz, hne⟩ | ⟨hz, hne⟩ | ⟨hz, hne⟩
      · have hcanon := canonNat_natStr (parseNat a)
        rw [h1] at hcanon
        rcases hcanon.2.2 with h | h
        · exact h hz
        · exact hne h
      · have hcanon := canonNat_natStr (parseNat b)
        rw [h3] at hcanon
        rcases hcanon.2.2 with h | h
        · exact h hz
        · exact hne h
      · have hcanon := canonNat_natStr (parseNat c)
        rw [h4] at hcanon
        rcases hcanon.2.2 with h | h
        · exact h hz
        · exact hne h
    rw [if_neg hne']
  · intro s hall hz hne
    have hsne : s ≠ [] := by
      intro h
      rw [h] at hz
      exact Option.noConfusion hz
    unfold parse_version_1
    rw [pyInt_digits hsne hall]
    dsimp only
    have hne' : intStr ((parseNat s : Int)) ≠ s := by
      intro heq
      rw [intStr_natCast] at heq
      have hcanon := canonNat_natStr (parseNat s)
      rw [heq] at hcanon
      rcases hcanon.2.2 with h | h
      · exact h hz
      · exact hne h
    rw [if_neg hne']

/-- Witness for C5 at the spec's own examples "01.2.3" and "07". -/
theorem C5_leading_zero_rejected_witness :
    parse_version_3 (chars "01" ++ '.' :: (chars "2" ++ '.' :: chars "3")) =
      .error .malformedVersion ∧
    parse_version_1 (chars "07") = .error .malformedVersion :=
  ⟨C5_leading_zero_rejected.1 (chars "01") (chars "2") (chars "3") (by decide) (by decide)
      (by decide) (by decide) (by decide) (by decide) (Or.inl ⟨by decide, by decide⟩),
    C5_leading_zero_rejected.2 (chars "07") (by decide) (by decide) (by decide)⟩

/-- C6 counterexample: `parse_version_1` does not send every non-matching
string to the diagnostic failure path: "-5" is accepted outright (int() parses
it and str() reproduces it), and "abc" raises a ValueError from `int()`, an
exception distinct from the script's `fail` diagnostic. -/
theorem C6_malformed_counterexample :
    parse_version_1 (chars "-5") = .ok ⟨-5⟩ ∧
    parse_version_1 (chars "abc") = .error .valueError := by decide

/-- C6 (amended): every string outside the exact three-component pattern fails
`parse_version_3` with the malformed-version diagnostic; for the one-component
form, a string outside the exact pattern either fails with the diagnostic, or
raises a ValueError from `int()`, or -- for negatively-signed canonical
numerals only -- is accepted. -/
theorem C6_parse_failure_paths :
    (∀ s : List Char, ¬Pattern3 s → parse_version_3 s = .error .malformedVersion) ∧
    (∀ s : List Char, ¬Pattern1 s →
      parse_version_1 s = .error .malformedVersion ∨
      parse_version_1 s = .error .valueError ∨
      ∃ n : Int, n < 0 ∧ parse_version_1 s = .ok ⟨n⟩) := by
  constructor
  · intro s hp
    rcases hm : match3 s with _ | ⟨a, b, c⟩
    · unfold parse_version_3
      rw [hm]
    · obtain ⟨ha, hb, hc, da, db, dc, hdec⟩ := match3_sound hm
      rcases hdec with hdec | hdec
      · exact absurd ⟨a, b, c, ha, hb, hc, da, db, dc, hdec⟩ hp
      · unfold parse_version_3
        rw [hm]
        dsimp only
        have hne' : (⟨(parseNat a : Int), (parseNat b : Int), (parseNat c : Int)⟩ :
            Version3).formatted ≠ s := by
          intro heq
          have hmem : '\n' ∈ s := by
            rw [hdec]
            simp
          rw [← heq, fmt3_nat] at hmem
          rcases List.mem_append.mp hmem with h | h
          · exact absurd (List.all_eq_true.mp (natStr_all _) _ h) (by decide)
          · rcases List.mem_cons.mp h with h | h
            · exact absurd h (by decide)
            · rcases List.mem_append.mp h with h | h
              · exact absurd (List.all_eq_true.mp (natStr_all _) _ h) (by decide)
              · rcases List.mem_cons.mp h with h | h
                · exact absurd h (by decide)
                · exact absurd (List.all_eq_true.mp (natStr_all _) _ h) (by decide)
        rw [if_neg hne']
  · intro s hp
    rcases hi : pyInt s with _ | n
    · right; left
      unfold parse_version_1
      rw [hi]
    · by_cases hfmt : intStr n = s
      · right; right
        refine ⟨n, ?_, ?_⟩
        · by_contra hpos
          push_neg at hpos
          apply hp
          have hs : s = natStr n.toNat := by
            rw [← hfmt]
            unfold intStr
            rw [if_neg (by omega)]
          rw [hs]
          exact ⟨natStr_ne_nil _, natStr_all _⟩
        · unfold parse_version_1
          rw [hi]
          dsimp only
          rw [if_pos hfmt]
      · left
        unfold parse_version_1
        rw [hi]
        dsimp only
        rw [if_neg hfmt]

/-- Witness for C6 (amended) at the non-matching input "x". -/
theorem C6_parse_failure_paths_witness :
    parse_version_3 (chars "x") = .error .malformedVersion ∧
    (parse_version_1 (chars "x") = .error .malformedVersion ∨
      parse_version_1 (chars "x") = .error .valueError ∨
      ∃ n : Int, n < 0 ∧ parse_version_1 (chars "x") = .ok ⟨n⟩) := by
  constructor
  · apply C6_parse_failure_paths.1
    intro hp
    obtain ⟨a, b, c, ha, hb, hc, da, db, dc, heq⟩ := hp
    have h0 : match3 (chars "x") = none := by decide
    rw [heq, match3_parts ha hb hc da db dc] at h0
    exact Option.noConfusion h0
  · apply C6_parse_failure_paths.2
    intro hp
    exact absurd hp.2 (by decide)

/-- C7 (evaluation at the failing inputs): the `is_valid_version_4` regex has
an unescaped dot as its third separator, so it accepts "1.2.3x4" and
"1.2.345" alongside the intended "1.2.3.4". -/
theorem C7_version4_check_eval :
    is_valid_version_4 (chars "1.2.3x4") = true ∧
    is_valid_version_4 (chars "1.2.345") = true ∧
    is_valid_version_4 (chars "1.2.3.4") = true := by decide

/-- C9: an explicit-mode nightly run on 2024-01-15 with target "6.0.0" creates
the tag "6.0.0.0-nightly", and its commit message contains both "6.0.0.0" and
"01-15-2024". -/
theorem C9_nightly_tag :
    (runMain ⟨some (chars "6.0.0"), false, true, false⟩ [] [] ⟨2024, 1, 15⟩
        ⟨demoPlist, demoPlist, demoPlist⟩).tag = some (chars "6.0.0.0-nightly") ∧
    (∃ x y, (runMain ⟨some (chars "6.0.0"), false, true, false⟩ [] [] ⟨2024, 1, 15⟩
        ⟨demoPlist, demoPlist, demoPlist⟩).commitMsg = some (x ++ (chars "6.0.0.0" ++ y))) ∧
    (∃ x y, (runMain ⟨some (chars "6.0.0"), false, true, false⟩ [] [] ⟨2024, 1, 15⟩
        ⟨demoPlist, demoPlist, demoPlist⟩).commitMsg =
          some (x ++ (chars "01-15-2024" ++ y))) := by
  refine ⟨by decide, ⟨chars "\"Bump build to ", chars ".\" (nightly-01-15-2024)", by decide⟩,
    ⟨chars "\"Bump build to 6.0.0.0.\" (nightly-", chars ")", by decide⟩⟩

/-- C4: round-trip.  Parsing any canonical string (components of decimal
digits with no leading zero, or exactly "0") succeeds and re-formatting
reproduces the string, for the one-, three-, and four-component forms; and
parsing the formatted rendering of any version value with non-negative integer
components returns that value. -/
theorem C4_round_trip :
    (∀ s : List Char, canonNat s →
      ∃ v : Version1, parse_version_1 s = .ok v ∧ v.formatted = s) ∧
    (∀ a b c : List Char, canonNat a → canonNat b → canonNat c →
      ∃ v : Version3, parse_version_3 (a ++ '.' :: (b ++ '.' :: c)) = .ok v ∧
        v.formatted = a ++ '.' :: (b ++ '.' :: c)) ∧
    (∀ a b c d : List Char, canonNat a → canonNat b → canonNat c → canonNat d →
      ∃ v : Version4, parse_version_4 (a ++ '.' :: (b ++ '.' :: (c ++ '.' :: d))) = .ok v ∧
        v.formatted = a ++ '.' :: (b ++ '.' :: (c ++ '.' :: d))) ∧
    (∀ n : Nat, parse_version_1 (Version1.formatted ⟨(n : Int)⟩) = .ok ⟨(n : Int)⟩) ∧
    (∀ x y z : Nat,
      parse_version_3 (Version3.formatted ⟨(x : Int), (y : Int), (z : Int)⟩) =
        .ok ⟨(x : Int), (y : Int), (z : Int)⟩) ∧
    (∀ x y z w : Nat,
      parse_version_4 (Version4.formatted ⟨(x : Int), (y : Int), (z : Int), (w : Int)⟩) =
        .ok ⟨(x : Int), (y : Int), (z : Int), (w : Int)⟩) := by
  refine ⟨?_, ?_, ?_, ?_, ?_, ?_⟩
  · intro s h
    refine ⟨⟨(parseNat s : Int)⟩, parse1_canon h, ?_⟩
    unfold Version1.formatted
    dsimp only
    rw [intStr_natCast, canon_natStr s h]
  · intro a b c ha hb hc
    refine ⟨_, parse3_canon ha hb hc, ?_⟩
    rw [fmt3_nat, canon_natStr a ha, canon_natStr b hb, canon_natStr c hc]
  · intro a b c d ha hb hc hd
    refine ⟨_, parse4_canon ha hb hc hd, ?_⟩
    rw [fmt4_nat, canon_natStr a ha, canon_natStr b hb, canon_natStr c hc, canon_natStr d hd]
  · intro n
    have hf : (⟨(n : Int)⟩ : Version1).formatted = natStr n := intStr_natCast n
    rw [hf]
    have h := parse1_canon (canonNat_natStr n)
    rw [parseNat_natStr] at h
    exact h
  · intro x y z
    rw [fmt3_nat]
    have h := parse3_canon (canonNat_natStr x) (canonNat_natStr y) (canonNat_natStr z)
    rw [parseNat_natStr, parseNat_natStr, parseNat_natStr] at h
    exact h
  · intro x y z w
    rw [fmt4_nat]
    have h := parse4_canon (canonNat_natStr x) (canonNat_natStr y) (canonNat_natStr z)
      (canonNat_natStr w)
    rw [parseNat_natStr, parseNat_natStr, parseNat_natStr, parseNat_natStr] at h
    exact h

/-- Witness for C4 at "42", "5.19.0", and "1.2.3.44". -/
theorem C4_round_trip_witness :
    (∃ v : Version1, parse_version_1 (chars "42") = .ok v ∧ v.formatted = chars "42") ∧
    (∃ v : Version3,
      parse_version_3 (chars "5" ++ '.' :: (chars "19" ++ '.' :: chars "0")) = .ok v ∧
        v.formatted = chars "5" ++ '.' :: (chars "19" ++ '.' :: chars "0")) ∧
    (∃ v : Version4,
      parse_version_4 (chars "1" ++ '.' :: (chars "2" ++ '.' :: (chars "3" ++ '.' ::
        chars "44"))) = .ok v ∧
        v.formatted = chars "1" ++ '.' :: (chars "2" ++ '.' :: (chars "3" ++ '.' ::
          chars "44"))) :=
  ⟨C4_round_trip.1 (chars "42") (by decide),
    C4_round_trip.2.1 (chars "5") (chars "19") (chars "0") (by decide) (by decide) (by decide),
    C4_round_trip.2.2.1 (chars "1") (chars "2") (chars "3") (chars "44") (by decide)
      (by decide) (by decide) (by decide)⟩

/-- C3 counterexample: with a main descriptor holding all three markers and a
share-extension descriptor missing them, an increment run fails with the
missing-marker diagnostic after it has already rewritten the main descriptor:
validation of the later descriptors does not happen before the earlier
writes. -/
theorem C3_partial_write_counterexample :
    (runMain ⟨none, false, false, false⟩ [] [] ⟨2024, 1, 15⟩
        ⟨demoPlist, chars "no markers here", chars "no markers here"⟩).err =
      some .missingMarker ∧
    (runMain ⟨none, false, false, false⟩ [] [] ⟨2024, 1, 15⟩
        ⟨demoPlist, chars "no markers here", chars "no markers here"⟩).plists.main ≠
      demoPlist := by decide

theorem svt_not_malformed {rel b1 b4 t t2 u : List Char}
    (h : set_versions_text rel b1 b4 t = .ok t2) :
    set_versions_text rel b1 b4 u ≠ .error .malformedVersion := by
  unfold set_versions_text at h ⊢
  split at h
  next => exact absurd h (by simp)
  next h1 =>
    split at h
    next => exact absurd h (by simp)
    next h2 =>
      split at h
      next => exact absurd h (by simp)
      next h3 =>
        rw [if_neg h1, if_neg h2, if_neg h3]
        split
        · simp
        · split
          · simp
          · split
            · simp
            · simp

/-- C3 (amended): a run that fails with the malformed-version diagnostic
leaves every descriptor unchanged, because the version strings are validated
before any write; a run that fails with the missing-marker diagnostic leaves
the last descriptor (NSE) unchanged -- and each descriptor is either untouched
or fully rewritten -- but descriptors processed before the failing one have
already been rewritten. -/
theorem C3_validation_before_write (args : Args) (statusOut diffOut : List Char)
    (today : PyDate) (w : Plists) :
    ((runMain args statusOut diffOut today w).err = some .malformedVersion →
      (runMain args statusOut diffOut today w).plists = w) ∧
    ((runMain args statusOut diffOut today w).err = some .missingMarker →
      (runMain args statusOut diffOut today w).plists.nse = w.nse) := by
  constructor
  · unfold runMain
    split
    next =>
      intro h
      simp [failedRun] at h
    next h1 =>
      split
      next =>
        intro h
        simp [failedRun] at h
      next h2 =>
        split
        next e heq =>
          intro _
          rfl
        next old heq =>
          split
          next e heq2 =>
            intro _
            rfl
          next trip heq2 =>
            split
            next e heq3 =>
              intro _
              rfl
            next m2 heq3 =>
              split
              next e heq4 =>
                intro h
                simp only [failedRun, Option.some.injEq] at h
                subst h
                exact absurd heq4 (svt_not_malformed heq3)
              next s2 heq4 =>
                split
                next e heq5 =>
                  intro h
                  simp only [failedRun, Option.some.injEq] at h
                  subst h
                  exact absurd heq5 (svt_not_malformed heq3)
                next n2 heq5 =>
                  intro h
                  simp at h
  · unfold runMain
    split
    next =>
      intro h
      simp [failedRun] at h
    next h1 =>
      split
      next =>
        intro h
        simp [failedRun] at h
      next h2 =>
        split
        next e heq =>
          intro _
          rfl
        next old heq =>
          split
          next e heq2 =>
            intro _
            rfl
          next trip heq2 =>
            split
            next e heq3 =>
              intro _
              rfl
            next m2 heq3 =>
              split
              next e heq4 =>
                intro _
                rfl
              next s2 heq4 =>
                split
                next e heq5 =>
                  intro _
                  rfl
                next n2 heq5 =>
                  intro h
                  simp at h

theorem getLast?_mem' {l : List Char} {a : Char} (h : l.getLast? = some a) : a ∈ l := by
  induction l with
  | nil => exact Option.noConfusion h
  | cons c t ih =>
    cases t with
    | nil =>
      simp only [List.getLast?_singleton, Option.some.injEq] at h
      subst h
      exact List.mem_cons_self _ _
    | cons d u =>
      rw [List.getLast?_cons_cons] at h
      exact List.mem_cons_of_mem c (ih h)

theorem head?_append_left {l1 : List Char} (l2 : List Char) (h : l1 ≠ []) :
    (l1 ++ l2).head? = l1.head? := by
  cases l1 with
  | nil => exact absurd rfl h
  | cons c t => rfl

theorem afterLit_sound : ∀ {k cs r : List Char}, afterLit k cs = some r → cs = k ++ r := by
  intro k
  induction k with
  | nil =>
    intro cs r h
    simp only [afterLit, Option.some.injEq] at h
    rw [h, List.nil_append]
  | cons x ks ih =>
    intro cs r h
    cases cs with
    | nil => exact Option.noConfusion h
    | cons c t =>
      unfold afterLit at h
      split at h
      next hc =>
        subst hc
        rw [List.cons_append, ih h]
      next => exact Option.noConfusion h

theorem isPrefixOf_to_append {k r : List Char} (h : k.isPrefixOf r = true) :
    ∃ t, r = k ++ t := by
  obtain ⟨t, ht⟩ := List.isPrefixOf_iff_prefix.mp h
  exact ⟨t, ht.symm⟩

theorem matchKeyAt_sound {key cs P V S : List Char}
    (h : matchKeyAt key valueDD cs = some (P, V, S)) :
    cs = P ++ V ++ S ∧ (∃ w, w.all pySpace = true ∧ P = key ++ w ++ strOpen) ∧
      V ≠ [] ∧ V.all isDD = true ∧ ∃ s0, S = strClose ++ s0 := by
  unfold matchKeyAt at h
  split at h
  next => exact Option.noConfusion h
  next r1 hr1 =>
    split at h
    next => exact Option.noConfusion h
    next r2 hr2 =>
      split at h
      next => exact Option.noConfusion h
      next v r3 hval =>
        simp only [Option.some.injEq, Prod.mk.injEq] at h
        obtain ⟨hP, hV, hS⟩ := h
        subst hP
        subst hV
        subst hS
        unfold valueDD at hval
        split at hval
        next hcond =>
          simp only [Option.some.injEq, Prod.mk.injEq] at hval
          obtain ⟨hv, hr3⟩ := hval
          subst hv
          subst hr3
          have hcs1 : cs = key ++ r1 := afterLit_sound hr1
          have hr1d : r1 = r1.takeWhile pySpace ++ (strOpen ++ r2) := by
            have hd := (List.takeWhile_append_dropWhile (p := pySpace) (l := r1)).symm
            rw [afterLit_sound hr2] at hd
            exact hd
          refine ⟨?_, ⟨r1.takeWhile pySpace, takeWhile_all r1, rfl⟩, hcond.1,
            takeWhile_all r2, isPrefixOf_to_append hcond.2⟩
          rw [hcs1]
          conv_lhs => rw [hr1d]
          conv_lhs =>
            rw [show strOpen ++ r2 =
              strOpen ++ (r2.takeWhile isDD ++ r2.dropWhile isDD) from by
                rw [List.takeWhile_append_dropWhile]]
          simp [List.append_assoc]
        next => exact Option.noConfusion hval

theorem findMarker_sound {key : List Char} :
    ∀ {t P V S : List Char}, findMarker key valueDD t = some (P, V, S) →
      MarkerOcc key t P V S := by
  intro t
  induction t with
  | nil =>
    intro P V S h
    exact Option.noConfusion h
  | cons c rest ih =>
    intro P V S h
    unfold findMarker at h
    split at h
    next r hmk =>
      simp only [Option.some.injEq] at h
      subst h
      obtain ⟨h1, ⟨w, hw, hP⟩, h3, h4, h5⟩ := matchKeyAt_sound hmk
      exact ⟨h1, ⟨[], w, hw, hP⟩, h3, h4, h5⟩
    next hmk =>
      split at h
      next p v s hfind =>
        simp only [Option.some.injEq, Prod.mk.injEq] at h
        obtain ⟨hP, hV, hS⟩ := h
        subst hP
        subst hV
        subst hS
        obtain ⟨h1, ⟨P0, w, hw, hP⟩, h3, h4, h5⟩ := ih hfind
        refine ⟨by rw [List.cons_append, List.cons_append, ← h1], ⟨c :: P0, w, hw, ?_⟩,
          h3, h4, h5⟩
        rw [hP]
        rfl
      next => exact Option.noConfusion h

theorem match1_sound {cs a : List Char} (h : match1 cs = some a) :
    a ≠ [] ∧ a.all isDig = true ∧ (cs = a ∨ cs = a ++ ['\n']) := by
  unfold match1 at h
  split at h
  next hcond =>
    simp only [Option.some.injEq] at h
    subst h
    refine ⟨hcond.1, takeWhile_all cs, ?_⟩
    have d := (List.takeWhile_append_dropWhile (p := isDig) (l := cs)).symm
    rcases eolOk_elim hcond.2 with he | he
    · left
      conv_lhs => rw [d]
      rw [he, List.append_nil]
    · right
      conv_lhs => rw [d]
      rw [he]
  next => exact Option.noConfusion h

theorem valid1_struct {s : List Char} (h : is_valid_version_1 s = true) :
    s ≠ [] ∧ '<' ∉ s ∧ '>' ∉ s ∧ (∀ c, s.head? = some c → isDD c = true) := by
  unfold is_valid_version_1 at h
  rcases hm : match1 s with _ | a
  · rw [hm] at h
    exact absurd h (by simp)
  · obtain ⟨hane, hall, hdec⟩ := match1_sound hm
    have hmem : ∀ c ∈ s, isDig c = true ∨ c = '\n' := by
      intro c hc
      rcases hdec with rfl | rfl
      · exact Or.inl (List.all_eq_true.mp hall c hc)
      · rcases List.mem_append.mp hc with hc | hc
        · exact Or.inl (List.all_eq_true.mp hall c hc)
        · simp only [List.mem_singleton] at hc
          exact Or.inr hc
    refine ⟨?_, ?_, ?_, ?_⟩
    · rcases hdec with rfl | rfl
      · exact hane
      · simp
    · intro hc
      rcases hmem '<' hc with h | h
      · exact absurd h (by decide)
      · exact absurd h (by decide)
    · intro hc
      rcases hmem '>' hc with h | h
      · exact absurd h (by decide)
      · exact absurd h (by decide)
    · intro c hc
      have hh : s.head? = a.head? := by
        rcases hdec with rfl | rfl
        · rfl
        · exact head?_append_left _ hane
      rw [hh] at hc
      cases a with
      | nil => exact absurd rfl hane
      | cons x t =>
        simp only [List.head?_cons, Option.some.injEq] at hc
        subst hc
        have hx : isDig x = true := List.all_eq_true.mp hall x (List.mem_cons_self _ _)
        unfold isDD
        rw [hx]
        rfl

theorem valid3_struct {s : List Char} (h : is_valid_version_3 s = true) :
    s ≠ [] ∧ '<' ∉ s ∧ '>' ∉ s ∧ (∀ c, s.head? = some c → isDD c = true) := by
  unfold is_valid_version_3 at h
  rcases hm : match3 s with _ | ⟨a, b, c⟩
  · rw [hm] at h
    exact absurd h (by simp)
  · obtain ⟨ha, hb, hc, da, db, dc, hdec⟩ := match3_sound hm
    have hmem : ∀ x ∈ s, isDig x = true ∨ x = '.' ∨ x = '\n' := by
      intro x hx
      have hsplit : x ∈ a ∨ x = '.' ∨ x ∈ b ∨ x ∈ c ∨ x = '\n' := by
        rcases hdec with rfl | rfl
        · rcases List.mem_append.mp hx with h1 | h1
          · exact Or.inl h1
          · rcases List.mem_cons.mp h1 with h1 | h1
            · exact Or.inr (Or.inl h1)
            · rcases List.mem_append.mp h1 with h1 | h1
              · exact Or.inr (Or.inr (Or.inl h1))
              · rcases List.mem_cons.mp h1 with h1 | h1
                · exact Or.inr (Or.inl h1)
                · exact Or.inr (Or.inr (Or.inr (Or.inl h1)))
        · rcases List.mem_append.mp hx with h1 | h1
          · exact Or.inl h1
          · rcases List.mem_cons.mp h1 with h1 | h1
            · exact Or.inr (Or.inl h1)
            · rcases List.mem_append.mp h1 with h1 | h1
              · exact Or.inr (Or.inr (Or.inl h1))
              · rcases List.mem_cons.mp h1 with h1 | h1
                · exact Or.inr (Or.inl h1)
                · rcases List.mem_append.mp h1 with h1 | h1
                  · exact Or.inr (Or.inr (Or.inr (Or.inl h1)))
                  · simp only [List.mem_singleton] at h1
                    exact Or.inr (Or.inr (Or.inr (Or.inr h1)))
      rcases hsplit with h1 | h1 | h1 | h1 | h1
      · exact Or.inl (List.all_eq_true.mp da x h1)
      · exact Or.inr (Or.inl h1)
      · exact Or.inl (List.all_eq_true.mp db x h1)
      · exact Or.inl (List.all_eq_true.mp dc x h1)
      · exact Or.inr (Or.inr h1)
    refine ⟨?_, ?_, ?_, ?_⟩
    · rcases hdec with rfl | rfl
      · intro hnil
        rw [List.append_eq_nil] at hnil
        exact ha hnil.1
      · intro hnil
        rw [List.append_eq_nil] at hnil
        exact ha hnil.1
    · intro hc
      rcases hmem '<' hc with h1 | h1 | h1
      · exact absurd h1 (by decide)
      · exact absurd h1 (by decide)
      · exact absurd h1 (by decide)
    · intro hc
      rcases hmem '>' hc with h1 | h1 | h1
      · exact absurd h1 (by decide)
      · exact absurd h1 (by decide)
      · exact absurd h1 (by decide)
    · intro x hx
      have hh : s.head? = a.head? := by
        rcases hdec with rfl | rfl
        · exact head?_append_left _ ha
        · exact head?_append_left _ ha
      rw [hh] at hx
      cases a with
      | nil => exact absurd rfl ha
      | cons y t =>
        simp only [List.head?_cons, Option.some.injEq] at hx
        subst hx
        have hy : isDig y = true := List.all_eq_true.mp da y (List.mem_cons_self _ _)
        unfold isDD
        rw [hy]
        rfl

theorem ws_strip {A B w w' : List Char} (hw : w.all pySpace = true)
    (hw' : w'.all pySpace = true)
    (hA : ∃ A0 a, A = A0 ++ [a] ∧ pySpace a = false)
    (hB : ∃ B0 b, B = B0 ++ [b] ∧ pySpace b = false)
    (h : A ++ w = B ++ w') : A = B ∧ w = w' := by
  rcases List.append_eq_append_iff.mp h with ⟨k, hk1, hk2⟩ | ⟨k, hk1, hk2⟩
  · cases k with
    | nil =>
      rw [List.append_nil] at hk1
      rw [List.nil_append] at hk2
      exact ⟨hk1.symm, hk2⟩
    | cons x xs =>
      obtain ⟨B0, b, hBe, hbs⟩ := hB
      have hlast : (x :: xs).getLast? = some b := by
        have h1 : B.getLast? = some b := by
          rw [hBe]
          exact List.getLast?_concat _
        rw [hk1, List.getLast?_append_of_ne_nil A (by simp)] at h1
        exact h1
      have hmem : b ∈ w := by
        rw [hk2]
        exact List.mem_append_left _ (getLast?_mem' hlast)
      have := List.all_eq_true.mp hw b hmem
      rw [hbs] at this
      exact Bool.noConfusion this
  · cases k with
    | nil =>
      rw [List.append_nil] at hk1
      rw [List.nil_append] at hk2
      exact ⟨hk1, hk2.symm⟩
    | cons x xs =>
      obtain ⟨A0, a, hAe, has⟩ := hA
      have hlast : (x :: xs).getLast? = some a := by
        have h1 : A.getLast? = some a := by
          rw [hAe]
          exact List.getLast?_concat _
        rw [hk1, List.getLast?_append_of_ne_nil B (by simp)] at h1
        exact h1
      have hmem : a ∈ w' := by
        rw [hk2]
        exact List.mem_append_left _ (getLast?_mem' hlast)
      have := List.all_eq_true.mp hw' a hmem
      rw [has] at this
      exact Bool.noConfusion this

theorem key_suffix_clash {p Q P0 Q0 w w' keyA keyB : List Char}
    (hp : p = P0 ++ keyA ++ w ++ strOpen) (hw : w.all pySpace = true)
    (hQ : Q = Q0 ++ keyB ++ w' ++ strOpen) (hw' : w'.all pySpace = true)
    (hpQ : p = Q)
    (hA : ∃ a0, keyA = a0 ++ ['>']) (hB : ∃ b0, keyB = b0 ++ ['>'])
    (hs1 : ¬ keyA <:+ keyB) (hs2 : ¬ keyB <:+ keyA) : False := by
  rw [hp, hQ] at hpQ
  have h1 : P0 ++ keyA ++ w = Q0 ++ keyB ++ w' := List.append_cancel_right hpQ
  obtain ⟨a0, ha0⟩ := hA
  obtain ⟨b0, hb0⟩ := hB
  have hAB : P0 ++ keyA = Q0 ++ keyB ∧ w = w' := by
    refine ws_strip hw hw' ⟨P0 ++ a0, '>', ?_, by decide⟩ ⟨Q0 ++ b0, '>', ?_, by decide⟩ h1
    · rw [ha0, List.append_assoc]
    · rw [hb0, List.append_assoc]
  rcases List.append_eq_append_iff.mp hAB.1 with ⟨k, _, hk2⟩ | ⟨k, _, hk2⟩
  · exact hs2 ⟨k, hk2.symm⟩
  · exact hs1 ⟨k, hk2.symm⟩

theorem occ_middle {p Q m s V R P0 w Q0 w' s0 r0 keyA keyB : List Char}
    (hp : p = P0 ++ keyA ++ w ++ strOpen) (hw : w.all pySpace = true)
    (hQ : Q = Q0 ++ keyB ++ w' ++ strOpen) (hw' : w'.all pySpace = true)
    (hpQ : p = Q)
    (hm1 : '<' ∉ m)
    (hs : s = strClose ++ s0) (_hV : V ≠ []) (hVd : V.all isDD = true)
    (hR : R = strClose ++ r0)
    (hA : ∃ a0, keyA = a0 ++ ['>']) (hB : ∃ b0, keyB = b0 ++ ['>'])
    (hs1 : ¬ keyA <:+ keyB) (hs2 : ¬ keyB <:+ keyA)
    (h : m ++ s = V ++ R) : False := by
  rcases List.append_eq_append_iff.mp h with ⟨i, hi1, hi2⟩ | ⟨i, hi1, hi2⟩
  · cases i with
    | nil => exact key_suffix_clash hp hw hQ hw' hpQ hA hB hs1 hs2
    | cons x xs =>
      have hxV : x ∈ V := by
        rw [hi1]
        exact List.mem_append_right m (List.mem_cons_self _ _)
      have hx : isDD x = true := List.all_eq_true.mp hVd x hxV
      have hhd : s.head? = some x := by
        rw [hi2]
        rfl
      rw [hs] at hhd
      have hlt : '<' = x := by
        rw [show (strClose ++ s0).head? = some '<' from rfl] at hhd
        exact Option.some.inj hhd
      rw [← hlt] at hx
      exact absurd hx (by decide)
  · cases i with
    | nil => exact key_suffix_clash hp hw hQ hw' hpQ hA hB hs1 hs2
    | cons x xs =>
      have hxm : x ∈ m := by
        rw [hi1]
        exact List.mem_append_right V (List.mem_cons_self _ _)
      have hhd : R.head? = some x := by
        rw [hi2]
        rfl
      rw [hR] at hhd
      have hlt : '<' = x := by
        rw [show (strClose ++ r0).head? = some '<' from rfl] at hhd
        exact Option.some.inj hhd
      rw [← hlt] at hxm
      exact hm1 hxm

theorem occSplit {p m s Q V R keyA keyB P0 w Q0 w' s0 r0 : List Char}
    (hp : p = P0 ++ keyA ++ w ++ strOpen) (hw : w.all pySpace = true)
    (hmlt : '<' ∉ m) (hmgt : '>' ∉ m)
    (hs : s = strClose ++ s0)
    (hQ : Q = Q0 ++ keyB ++ w' ++ strOpen) (hw' : w'.all pySpace = true)
    (hV : V ≠ []) (hVd : V.all isDD = true)
    (hR : R = strClose ++ r0)
    (hA : ∃ a0, keyA = a0 ++ ['>']) (hB : ∃ b0, keyB = b0 ++ ['>'])
    (hs1 : ¬ keyA <:+ keyB) (hs2 : ¬ keyB <:+ keyA)
    (heq : p ++ m ++ s = Q ++ V ++ R) :
    (∃ X, p = Q ++ V ++ X ∧ R = X ++ m ++ s) ∨
    (∃ Y, Q = p ++ m ++ Y ∧ s = Y ++ V ++ R) := by
  have heq' : p ++ (m ++ s) = Q ++ (V ++ R) := by
    simpa only [List.append_assoc] using heq
  rcases List.append_eq_append_iff.mp heq' with ⟨k, hk1, hk2⟩ | ⟨k, hk1, hk2⟩
  · rcases List.append_eq_append_iff.mp hk2 with ⟨j, hj1, hj2⟩ | ⟨j, hj1, hj2⟩
    · right
      refine ⟨j, ?_, ?_⟩
      · rw [hk1, hj1, List.append_assoc]
      · rw [hj2, List.append_assoc]
    · cases k with
      | nil =>
        have hpq : Q = p := by
          rw [hk1, List.append_nil]
        have hmj : m = j := by
          simpa using hj1
        have hms : m ++ s = V ++ R := by
          rw [hmj]
          exact hj2.symm
        exact (occ_middle hp hw hQ hw' hpq.symm hmlt hs hV hVd hR hA hB hs1 hs2 hms).elim
      | cons x xs =>
        exfalso
        have hQlast : Q.getLast? = some '>' := by
          rw [hQ, List.getLast?_append_of_ne_nil _ (by decide : strOpen ≠ [])]
          decide
        rw [hk1, List.getLast?_append_of_ne_nil p (by simp)] at hQlast
        have hgt : '>' ∈ m := by
          rw [hj1]
          exact List.mem_append_left j (getLast?_mem' hQlast)
        exact hmgt hgt
  · rcases List.append_eq_append_iff.mp hk2 with ⟨j, hj1, hj2⟩ | ⟨j, hj1, hj2⟩
    · left
      refine ⟨j, ?_, ?_⟩
      · rw [hk1, hj1, List.append_assoc]
      · rw [hj2, List.append_assoc]
    · cases k with
      | nil =>
        have hpq : p = Q := by
          rw [hk1, List.append_nil]
        have hVj : V = j := by
          simpa using hj1
        have hms : m ++ s = V ++ R := by
          rw [hVj]
          exact hj2
        exact (occ_middle hp hw hQ hw' hpq hmlt hs hV hVd hR hA hB hs1 hs2 hms).elim
      | cons x xs =>
        exfalso
        have hplast : p.getLast? = some '>' := by
          rw [hp, List.getLast?_append_of_ne_nil _ (by decide : strOpen ≠ [])]
          decide
        rw [hk1, List.getLast?_append_of_ne_nil Q (by simp)] at hplast
        have hgt : '>' ∈ V := by
          rw [hj1]
          exact List.mem_append_left j (getLast?_mem' hplast)
        exact absurd (List.all_eq_true.mp hVd '>' hgt) (by decide)

theorem pre_close {S Y V Z s0 : List Char} (hS : S = strClose ++ s0)
    (hsplit : S = Y ++ V ++ Z) (hV : V ≠ [])
    (hVh : ∀ c, V.head? = some c → isDD c = true) :
    ∃ y0, Y = strClose ++ y0 := by
  have hsplit' : strClose ++ s0 = Y ++ (V ++ Z) := by
    rw [← hS, hsplit, List.append_assoc]
  rcases List.append_eq_append_iff.mp hsplit' with ⟨k, hk1, hk2⟩ | ⟨k, hk1, hk2⟩
  · exact ⟨k, hk1⟩
  · cases k with
    | nil =>
      have hY : Y = strClose := by
        rw [hk1, List.append_nil]
      exact ⟨[], by rw [hY, List.append_nil]⟩
    | cons x xs =>
      exfalso
      have hxs : x ∈ strClose := by
        rw [hk1]
        exact List.mem_append_right Y (List.mem_cons_self _ _)
      have hhV : V.head? = some x := by
        have h1 : (V ++ Z).head? = some x := by
          rw [hk2]
          rfl
        rw [head?_append_left Z hV] at h1
        exact h1
      have hdd := hVh x hhV
      have hnot : strClose.all (fun c => !(isDD c)) = true := by decide
      have hcontra := List.all_eq_true.mp hnot x hxs
      rw [hdd] at hcontra
      exact Bool.noConfusion hcontra

theorem suffix_block {P A X key w P0 x0 : List Char}
    (hsuffix : P = A ++ X)
    (hP : P = P0 ++ key ++ w ++ strOpen) (hw : w.all pySpace = true)
    (hX : X = strClose ++ x0)
    (hkey1 : ∃ k0, key = k0 ++ ['>'])
    (hkey2 : ¬ (strClose <:+: key)) :
    ∃ X0, X = X0 ++ key ++ w ++ strOpen := by
  have h1 : A ++ X = P0 ++ (key ++ (w ++ strOpen)) := by
    rw [← hsuffix, hP]
    simp [List.append_assoc]
  rcases List.append_eq_append_iff.mp h1 with ⟨k, _, hk2⟩ | ⟨k, _, hk2⟩
  · refine ⟨k, ?_⟩
    rw [hk2]
    simp [List.append_assoc]
  · exfalso
    rw [hX] at hk2
    rcases List.append_eq_append_iff.mp hk2 with ⟨j, hj1, hj2⟩ | ⟨j, hj1, hj2⟩
    · rcases List.append_eq_append_iff.mp hj2 with ⟨i, hi1, hi2⟩ | ⟨i, hi1, hi2⟩
      · have hlen := congrArg List.length hi2
        simp only [List.length_append] at hlen
        have h8 : strOpen.length = 8 := by decide
        have h9 : strClose.length = 9 := by decide
        omega
      · cases i with
        | nil =>
          have hsc : strClose ++ x0 = strOpen := by
            simpa using hi2
          have hlen := congrArg List.length hsc
          simp only [List.length_append] at hlen
          have h8 : strOpen.length = 8 := by decide
          have h9 : strClose.length = 9 := by decide
          omega
        | cons y ys =>
          have hy : ('<' : Char) = y := by
            have hcg := congrArg List.head? hi2
            rw [show (strClose ++ x0).head? = some '<' from rfl,
              show ((y :: ys) ++ strOpen).head? = some y from rfl] at hcg
            exact Option.some.inj hcg
          have hyw : y ∈ w := by
            rw [hi1]
            exact List.mem_append_right j (List.mem_cons_self _ _)
          have := List.all_eq_true.mp hw y hyw
          rw [← hy] at this
          exact absurd this (by decide)
    · rcases List.append_eq_append_iff.mp hj2 with ⟨i, hi1, hi2⟩ | ⟨i, hi1, hi2⟩
      · exact hkey2 ⟨k, i, by rw [List.append_assoc, ← hi1, ← hj1]⟩
      · cases j with
        | nil =>
          have hsc : w ++ strOpen = strClose ++ x0 := by
            have hi : strClose = i := by
              simpa using hi1
            rw [← hi] at hi2
            simpa using hi2
          rcases List.append_eq_append_iff.mp hsc with ⟨q, hq1, hq2⟩ | ⟨q, hq1, hq2⟩
          · cases w with
            | nil =>
              have hq : strClose = q := by
                simpa using hq1
              rw [← hq] at hq2
              have hlen := congrArg List.length hq2
              simp only [List.length_append] at hlen
              have h8 : strOpen.length = 8 := by decide
              have h9 : strClose.length = 9 := by decide
              omega
            | cons z zs =>
              have hz : ('<' : Char) = z := by
                have hcg := congrArg List.head? hq1
                rw [show strClose.head? = some '<' from rfl,
                  show ((z :: zs) ++ q).head? = some z from rfl] at hcg
                exact Option.some.inj hcg
              have hzw : z ∈ (z :: zs) := List.mem_cons_self _ _
              have := List.all_eq_true.mp hw z hzw
              rw [← hz] at this
              exact absurd this (by decide)
          · have hltw : '<' ∈ w := by
              rw [hq1]
              exact List.mem_append_left q (by decide)
            have := List.all_eq_true.mp hw '<' hltw
            exact absurd this (by decide)
        | cons y ys =>
          have hpre : (y :: ys) <+: strClose := ⟨i, hi1.symm⟩
          have hjtake : (y :: ys) = strClose.take (y :: ys).length :=
            List.prefix_iff_eq_take.mp hpre
          have hlen : (y :: ys).length ≤ 9 := by
            have h9 : strClose.length = 9 := by decide
            have := hpre.length_le
            omega
          obtain ⟨k0, hk0⟩ := hkey1
          have hklast : key.getLast? = some '>' := by
            rw [hk0]
            exact List.getLast?_concat _
          rw [hj1, List.getLast?_append_of_ne_nil k (by simp)] at hklast
          have hpos : 1 ≤ (y :: ys).length := by simp
          have hcases : (y :: ys).length = 1 ∨ (y :: ys).length = 2 ∨
              (y :: ys).length = 3 ∨ (y :: ys).length = 4 ∨ (y :: ys).length = 5 ∨
              (y :: ys).length = 6 ∨ (y :: ys).length = 7 ∨ (y :: ys).length = 8 ∨
              (y :: ys).length = 9 := by omega
          rcases hcases with hn | hn | hn | hn | hn | hn | hn | hn | hn
          · rw [hn] at hjtake
            rw [hjtake] at hklast
            exact absurd hklast (by decide)
          · rw [hn] at hjtake
            rw [hjtake] at hklast
            exact absurd hklast (by decide)
          · rw [hn] at hjtake
            rw [hjtake] at hklast
            exact absurd hklast (by decide)
          · rw [hn] at hjtake
            rw [hjtake] at hklast
            exact absurd hklast (by decide)
          · rw [hn] at hjtake
            rw [hjtake] at hklast
            exact absurd hklast (by decide)
          · rw [hn] at hjtake
            rw [hjtake] at hklast
            exact absurd hklast (by decide)
          · rw [hn] at hjtake
            rw [hjtake] at hklast
            exact absurd hklast (by decide)
          · rw [hn] at hjtake
            rw [hjtake] at hklast
            exact absurd hklast (by decide)
          · rw [hn] at hjtake
            have hjfull : (y :: ys) = strClose := by
              rw [hjtake]
              decide
            exact hkey2 ⟨k, [], by rw [List.append_nil, ← hjfull, ← hj1]⟩

theorem head_dd_of_all {V : List Char} (hVd : V.all isDD = true) :
    ∀ c, V.head? = some c → isDD c = true := by
  intro c hc
  exact List.all_eq_true.mp hVd c (List.mem_of_mem_head? (Option.mem_def.mpr hc))

/-- C8: rewriting a descriptor is a no-op outside the three marker value
spans.  Whenever `set_versions` succeeds on a text, the text decomposes into
seven pieces around three nonempty digits-and-dots value spans, and the output
is the same decomposition with exactly the three new version strings (in some
document order) in those spans; every byte outside the three spans is
unchanged. -/
theorem C8_rewrite_frame {rel b1 b4 text out : List Char}
    (h : set_versions_text rel b1 b4 text = .ok out) :
    ∃ a1 v1 a2 v2 a3 v3 a4 w1 w2 w3 : List Char,
      text = a1 ++ v1 ++ a2 ++ v2 ++ a3 ++ v3 ++ a4 ∧
      out = a1 ++ w1 ++ a2 ++ w2 ++ a3 ++ w3 ++ a4 ∧
      v1 ≠ [] ∧ v2 ≠ [] ∧ v3 ≠ [] ∧
      v1.all isDD = true ∧ v2.all isDD = true ∧ v3.all isDD = true ∧
      [w1, w2, w3].Perm [rel, b1, b4] := by
  unfold set_versions_text at h
  split at h
  next => exact absurd h (by simp)
  next h1 =>
    split at h
    next => exact absurd h (by simp)
    next h2 =>
      split at h
      next => exact absurd h (by simp)
      next h3 =>
        have hval3 : is_valid_version_3 rel = true := by
          revert h1
          cases is_valid_version_3 rel <;> simp
        have hval1 : is_valid_version_1 b1 = true := by
          revert h2
          cases is_valid_version_1 b1 <;> simp
        obtain ⟨hrne, hrlt, hrgt, hrhead⟩ := valid3_struct hval3
        obtain ⟨hbne, hblt, hbgt, hbhead⟩ := valid1_struct hval1
        split at h
        next => exact absurd h (by simp)
        next P1 V1 S1 hf1 =>
          split at h
          next => exact absurd h (by simp)
          next P2 V2 S2 hf2 =>
            split at h
            next => exact absurd h (by simp)
            next P3 V3 S3 hf3 =>
              injection h with h
              obtain ⟨ht1, ⟨P10, w1, hws1, hP1⟩, hV1ne, hV1dd, s10, hS1⟩ :=
                findMarker_sound hf1
              obtain ⟨ht2, ⟨P20, w2, hws2, hP2⟩, hV2ne, hV2dd, s20, hS2⟩ :=
                findMarker_sound hf2
              obtain ⟨ht3, ⟨P30, w3, hws3, hP3⟩, hV3ne, hV3dd, s30, hS3⟩ :=
                findMarker_sound hf3
              have hA1 : ∃ a0, key1 = a0 ++ ['>'] :=
                ⟨chars "<key>CFBundleShortVersionString</key", by decide⟩
              have hA2 : ∃ a0, key2 = a0 ++ ['>'] :=
                ⟨chars "<key>CFBundleVersion</key", by decide⟩
              have hA3 : ∃ a0, key3 = a0 ++ ['>'] :=
                ⟨chars "<key>OWSBundleVersion4</key", by decide⟩
              have hns12 : ¬ key1 <:+ key2 := by decide
              have hns21 : ¬ key2 <:+ key1 := by decide
              have hns13 : ¬ key1 <:+ key3 := by decide
              have hns31 : ¬ key3 <:+ key1 := by decide
              have hns23 : ¬ key2 <:+ key3 := by decide
              have hns32 : ¬ key3 <:+ key2 := by decide
              have hni1 : ¬ (strClose <:+: key1) := by decide
              have hni3 : ¬ (strClose <:+: key3) := by decide
              have stepA := occSplit hP1 hws1 hrlt hrgt hS1 hP2 hws2 hV2ne hV2dd hS2
                hA1 hA2 hns12 hns21 ht2
              have stepB := occSplit hP2 hws2 hblt hbgt hS2 hP3 hws3 hV3ne hV3dd hS3
                hA2 hA3 hns23 hns32 ht3
              rcases stepA with ⟨X, hX1, hX2⟩ | ⟨Y, hY1, hY2⟩
              · rcases stepB with ⟨Z, hZ1, hZ2⟩ | ⟨W, hW1, hW2⟩
                · -- occ3 and occ2 both inside P1: order V3, V2, V1
                  refine ⟨P3, V3, Z, V2, X, V1, S1, b4, b1, rel, ?_, ?_, hV3ne, hV2ne,
                    hV1ne, hV3dd, hV2dd, hV1dd, List.reverse_perm [rel, b1, b4]⟩
                  · rw [ht1, hX1, hZ1]
                  · rw [← h, hZ2, hX2]
                    simp [List.append_assoc]
                · -- occ2 inside P1, occ3 inside S2 = X ++ rel ++ S1
                  have hXclose : ∃ x0, X = strClose ++ x0 :=
                    pre_close hS2 (by rw [hX2]) hrne hrhead
                  have hWclose : ∃ q0, W = strClose ++ q0 :=
                    pre_close hS2 (by rw [hW2]) hV3ne (head_dd_of_all hV3dd)
                  obtain ⟨x0, hXc⟩ := hXclose
                  obtain ⟨q0, hWc⟩ := hWclose
                  obtain ⟨X0, hXblock⟩ := suffix_block hX1 hP1 hws1 hXc hA1 hni1
                  obtain ⟨W0, hWblock⟩ := suffix_block hW1 hP3 hws3 hWc hA3 hni3
                  have heq3 : X ++ rel ++ S1 = W ++ V3 ++ S3 := by
                    rw [← hX2, hW2]
                  have stepC := occSplit hXblock hws1 hrlt hrgt hS1 hWblock hws3
                    hV3ne hV3dd hS3 hA1 hA3 hns13 hns31 heq3
                  rcases stepC with ⟨U, hU1, hU2⟩ | ⟨U, hU1, hU2⟩
                  · -- order: V2, V3, V1
                    refine ⟨P2, V2, W, V3, U, V1, S1, b1, b4, rel, ?_, ?_, hV2ne, hV3ne,
                      hV1ne, hV2dd, hV3dd, hV1dd, List.perm_append_singleton rel [b1, b4]⟩
                    · rw [ht1, hX1, hU1]
                      simp [List.append_assoc]
                    · rw [← h, hW1, hU2]
                      simp [List.append_assoc]
                  · -- order: V2, V1, V3
                    refine ⟨P2, V2, X, V1, U, V3, S3, b1, rel, b4, ?_, ?_, hV2ne, hV1ne,
                      hV3ne, hV2dd, hV1dd, hV3dd, List.Perm.swap rel b1 [b4]⟩
                    · rw [ht1, hX1, hU2]
                      simp [List.append_assoc]
                    · rw [← h, hW1, hU1]
                      simp [List.append_assoc]
              · rcases stepB with ⟨Z, hZ1, hZ2⟩ | ⟨W, hW1, hW2⟩
                · -- occ2 inside S1, occ3 inside P2 = P1 ++ rel ++ Y
                  have hYclose : ∃ y0, Y = strClose ++ y0 :=
                    pre_close hS1 (by rw [hY2]) hV2ne (head_dd_of_all hV2dd)
                  have hZclose : ∃ z0, Z = strClose ++ z0 :=
                    pre_close hS3 (by rw [hZ2]) hbne hbhead
                  obtain ⟨y0, hYc⟩ := hYclose
                  obtain ⟨z0, hZc⟩ := hZclose
                  have heq3 : P1 ++ rel ++ Y = P3 ++ V3 ++ Z := by
                    rw [← hY1, hZ1]
                  have stepC := occSplit hP1 hws1 hrlt hrgt hYc hP3 hws3
                    hV3ne hV3dd hZc hA1 hA3 hns13 hns31 heq3
                  rcases stepC with ⟨U, hU1, hU2⟩ | ⟨U, hU1, hU2⟩
                  · -- order: V3, V1, V2
                    refine ⟨P3, V3, U, V1, Y, V2, S2, b4, rel, b1, ?_, ?_, hV3ne, hV1ne,
                      hV2ne, hV3dd, hV1dd, hV2dd,
                      (List.perm_append_singleton b4 [rel, b1]).symm⟩
                    · rw [ht1, hY2, hU1]
                      simp [List.append_assoc]
                    · rw [← h, hZ2, hU2]
                      simp [List.append_assoc]
                  · -- order: V1, V3, V2
                    refine ⟨P1, V1, U, V3, Z, V2, S2, rel, b4, b1, ?_, ?_, hV1ne, hV3ne,
                      hV2ne, hV1dd, hV3dd, hV2dd,
                      List.Perm.cons rel (List.Perm.swap b1 b4 [])⟩
                    · rw [ht1, hY2, hU2]
                      simp [List.append_assoc]
                    · rw [← h, hZ2, hU1]
                      simp [List.append_assoc]
                · -- occ2 inside S1, occ3 inside S2: order V1, V2, V3
                  refine ⟨P1, V1, Y, V2, W, V3, S3, rel, b1, b4, ?_, ?_, hV1ne, hV2ne,
                    hV3ne, hV1dd, hV2dd, hV3dd, List.Perm.refl _⟩
                  · rw [ht1, hY2, hW2]
                    simp [List.append_assoc]
                  · rw [← h, hW1, hY1]

/-- Witness for C8 on the demo descriptor. -/
theorem C8_rewrite_frame_witness :
    ∃ a1 v1 a2 v2 a3 v3 a4 w1 w2 w3 : List Char,
      demoPlist = a1 ++ v1 ++ a2 ++ v2 ++ a3 ++ v3 ++ a4 ∧
      chars "<key>CFBundleShortVersionString</key><string>1.2.3</string><key>CFBundleVersion</key><string>5</string><key>OWSBundleVersion4</key><string>1.2.3.5</string>" =
        a1 ++ w1 ++ a2 ++ w2 ++ a3 ++ w3 ++ a4 ∧
      v1 ≠ [] ∧ v2 ≠ [] ∧ v3 ≠ [] ∧
      v1.all isDD = true ∧ v2.all isDD = true ∧ v3.all isDD = true ∧
      [w1, w2, w3].Perm [chars "1.2.3", chars "5", chars "1.2.3.5"] :=
  C8_rewrite_frame (by decide)

/-- Witness for C3 (amended): a malformed stored version (leading zero in the
build counter of the main descriptor) aborts the run with every descriptor
unchanged. -/
theorem C3_validation_before_write_witness :
    (runMain ⟨some (chars "6.0.0x"), false, false, false⟩ [] [] ⟨2024, 1, 15⟩
        ⟨demoPlist, demoPlist, demoPlist⟩).err = some .malformedVersion ∧
    (runMain ⟨some (chars "6.0.0x"), false, false, false⟩ [] [] ⟨2024, 1, 15⟩
        ⟨demoPlist, demoPlist, demoPlist⟩).plists = ⟨demoPlist, demoPlist, demoPlist⟩ :=
  ⟨by decide,
    (C3_validation_before_write ⟨some (chars "6.0.0x"), false, false, false⟩ [] []
      ⟨2024, 1, 15⟩ ⟨demoPlist, demoPlist, demoPlist⟩).1 (by decide)⟩

end BumpTag
